import Mathlib

/-!
Shallow embedding of the web-crawl engine of `meta-agent-platform`
(`src/ingestion-worker/crawler.py`) together with the parts of CPython 3.11's
`urllib.parse` that it calls (`urlparse`, `urlunparse`, `urljoin`).

Python strings are modelled as `List Char`.  All character-level operations
(`str.lower`, `str.strip`, `str.isspace`) are modelled for ASCII characters,
which is the domain of every URL and marker string the crawler manipulates;
CPython's Unicode-only extras (the NFKC check of `_checknetloc` for non-ASCII
netlocs, Unicode case mapping) are outside the model and the theorems that
depend on case mapping carry explicit ASCII hypotheses where it matters.
Fallible Python code (`urlparse` raising `ValueError`) is modelled with
`Except Unit`.
-/

namespace Crawler

/-- Python `str.lower` on one character, ASCII case mapping
(`A`..`Z` have codes 65..90; adding 32 gives `a`..`z`). -/
def lowerChar (c : Char) : Char :=
  if 65 ≤ c.toNat ∧ c.toNat ≤ 90 then Char.ofNat (c.toNat + 32) else c

/-- Python `str.lower` on a string. -/
def pyLower (s : List Char) : List Char := s.map lowerChar

/-- Python whitespace characters recognised by `str.strip()` / `str.isspace()`
(ASCII part: space, tab, newline, carriage return, vertical tab, form feed). -/
def isPySpace (c : Char) : Bool :=
  c = ' ' ∨ c = '\t' ∨ c = '\n' ∨ c = '\x0d' ∨ c = '\x0b' ∨ c = '\x0c'

/-- Python `str.strip()` with no argument: drop leading and trailing whitespace. -/
def pyStrip (s : List Char) : List Char :=
  ((s.dropWhile isPySpace).reverse.dropWhile isPySpace).reverse

/-- Python `str.isspace()`: true iff the string is non-empty and all whitespace. -/
def pyIsspace (s : List Char) : Bool :=
  s ≠ [] ∧ s.all isPySpace

/-! ## `chunk_text` (crawler.py lines 19-33)

```
def chunk_text(text, max_chars=1000, overlap=100):
    if not text:
        return []
    chunks = []
    start = 0
    while start < len(text):
        end = start + max_chars
        chunks.append(text[start:end])
        start += max_chars - overlap
        if start >= len(text):
            break
    if start < len(text) and not text[start:].isspace():
        if len(text) - (start - (max_chars - overlap)) > max_chars:
            chunks.append(text[start:])
    return [chunk.strip() for chunk in chunks if chunk.strip()]
```

The `while` loop is modelled with fuel; `text.length + 1` units suffice
whenever `max_chars - overlap ≥ 1` because `start` grows by that step each
iteration (for `max_chars ≤ overlap` the Python loop does not terminate, a
regime outside every claim).  The loop returns the collected chunks together
with the final value of `start`, which the (dead, see
`chunkLoop_final_ge`) post-loop block inspects. -/
def chunkLoop (text : List Char) (maxChars step : Nat) :
    Nat → Nat → List (List Char) × Nat
  | 0, start => ([], start)
  | fuel + 1, start =>
    if start < text.length then
      let rest := chunkLoop text maxChars step fuel (start + step)
      (((text.drop start).take maxChars) :: rest.1, rest.2)
    else ([], start)

/-- `chunk_text` from crawler.py. -/
def chunk_text (text : List Char) (maxChars overlap : Nat) : List (List Char) :=
  if text = [] then []
  else
    let step := maxChars - overlap
    let r := chunkLoop text maxChars step (text.length + 1) 0
    let withTail :=
      if r.2 < text.length ∧ ¬ pyIsspace (text.drop r.2) then
        if maxChars < text.length - (r.2 - step) then r.1 ++ [text.drop r.2]
        else r.1
      else r.1
    (withTail.map pyStrip).filter (fun c => c ≠ [])

/-! ## CPython 3.11 `urllib.parse` (the fragment used by crawler.py)

`urlparse`, `urlunparse`, `urljoin` and their helpers, transcribed from
`/usr/lib/python3.11/urllib/parse.py`.  `allow_fragments` is always `True`
in the crawler's calls and is modelled as such.  A raised `ValueError`
("Invalid IPv6 URL", from mismatched square brackets in the netloc) is
modelled as `Except.error ()`.  `_checknetloc` accepts every ASCII netloc
unchanged and its NFKC check for non-ASCII netlocs is not modelled. -/

/-- CPython `_UNSAFE_URL_BYTES_TO_REMOVE = ['\t', '\r', '\n']`: `urlsplit`
deletes these characters from the URL before parsing. -/
def removeUnsafe (s : List Char) : List Char :=
  s.filter (fun c => ¬ (c = '\t' ∨ c = '\x0d' ∨ c = '\n'))

/-- CPython `scheme_chars`: ASCII letters (codes 97-122 and 65-90), digits
(48-57), `+`, `-`, `.`. -/
def isSchemeChar (c : Char) : Bool :=
  (97 ≤ c.toNat ∧ c.toNat ≤ 122) ∨ (65 ≤ c.toNat ∧ c.toNat ≤ 90) ∨
    (48 ≤ c.toNat ∧ c.toNat ≤ 57) ∨ c = '+' ∨ c = '-' ∨ c = '.'

/-- Python `url[0].isascii() and url[0].isalpha()`: an ASCII letter. -/
def isAsciiAlpha (c : Char) : Bool :=
  (97 ≤ c.toNat ∧ c.toNat ≤ 122) ∨ (65 ≤ c.toNat ∧ c.toNat ≤ 90)

/-- Split at the first occurrence of `sep` (Python `s.split(sep, 1)` when the
separator occurs; `none` when it does not, i.e. `sep not in s`). -/
def splitFirst (sep : Char) : List Char → Option (List Char × List Char)
  | [] => none
  | c :: cs =>
    if c = sep then some ([], cs)
    else
      match splitFirst sep cs with
      | none => none
      | some (a, b) => some (c :: a, b)

/-- Split at the last occurrence of `sep` (used for Python `s.rfind(sep)`);
`none` when `sep` does not occur. -/
def splitLast (sep : Char) : List Char → Option (List Char × List Char)
  | [] => none
  | c :: cs =>
    match splitLast sep cs with
    | some (a, b) => some (c :: a, b)
    | none => if c = sep then some ([], cs) else none

/-- The delimiters `'/?#'` terminating the netloc in CPython `_splitnetloc`. -/
def isNetlocDelim (c : Char) : Bool := c = '/' ∨ c = '?' ∨ c = '#'

/-- CPython `uses_params`. -/
def usesParams : List (List Char) :=
  ["", "ftp", "hdl", "prospero", "http", "imap", "https", "shttp", "rtsp",
   "rtspu", "sip", "sips", "mms", "sftp", "tel"].map String.toList

/-- CPython `uses_netloc`. -/
def usesNetloc : List (List Char) :=
  ["", "ftp", "http", "gopher", "nntp", "telnet", "imap", "wais", "file",
   "mms", "https", "shttp", "snews", "prospero", "rtsp", "rtspu", "rsync",
   "svn", "svn+ssh", "sftp", "nfs", "git", "git+ssh", "ws", "wss"].map
    String.toList

/-- CPython `uses_relative`. -/
def usesRelative : List (List Char) :=
  ["", "ftp", "http", "gopher", "nntp", "imap", "wais", "file", "https",
   "shttp", "mms", "prospero", "rtsp", "rtspu", "sftp", "svn", "svn+ssh",
   "ws", "wss"].map String.toList

/-- Result of CPython `urlsplit`. -/
structure SplitResult where
  scheme : List Char
  netloc : List Char
  path : List Char
  query : List Char
  fragment : List Char
deriving Repr, DecidableEq

/-- The scheme-detection step of `urlsplit`: `i = url.find(':')`; when
`i > 0`, `url[0]` is an ASCII letter and every character of `url[:i]` is a
scheme character, the scheme is `url[:i].lower()` and the rest follows the
colon; otherwise the default scheme is used and the URL is untouched. -/
def schemeSplit (dflt url : List Char) : List Char × List Char :=
  match splitFirst ':' url with
  | some (pre, post) =>
    match pre with
    | [] => (dflt, url)
    | c :: _ =>
      if isAsciiAlpha c ∧ pre.all isSchemeChar then (pyLower pre, post)
      else (dflt, url)
  | none => (dflt, url)

/-- Negation of `isNetlocDelim`, the character class that may appear inside a
netloc. -/
def notNetlocDelim (c : Char) : Bool := ! isNetlocDelim c

/-- CPython `_splitnetloc(url, 2)` applied to `url[2:]`: the netloc runs to
the earliest of `'/'`, `'?'`, `'#'`. -/
def splitnetloc (url : List Char) : List Char × List Char :=
  (url.takeWhile notNetlocDelim, url.dropWhile notNetlocDelim)

/-- Python `if sep in url: url, x = url.split(sep, 1)` (used for the
fragment and query separators). -/
def splitTail (sep : Char) (url : List Char) : List Char × List Char :=
  match splitFirst sep url with
  | some (a, b) => (a, b)
  | none => (url, [])

/-- CPython 3.11 `urlsplit(url, scheme, allow_fragments=True)`. -/
def urlsplit (url0 defaultScheme0 : List Char) : Except Unit SplitResult :=
  let url1 := removeUnsafe url0
  let dflt := removeUnsafe defaultScheme0
  let sp := schemeSplit dflt url1
  let scheme := sp.1
  let url2 := sp.2
  let nl :=
    if url2.take 2 = ['/', '/'] then splitnetloc (url2.drop 2)
    else ([], url2)
  let netloc := nl.1
  let url3 := nl.2
  if ('[' ∈ netloc ∧ ']' ∉ netloc) ∨ (']' ∈ netloc ∧ '[' ∉ netloc) then
    .error ()
  else
    let fr := splitTail '#' url3
    let qu := splitTail '?' fr.1
    .ok ⟨scheme, netloc, qu.1, qu.2, fr.2⟩

/-- Result of CPython `urlparse`. -/
structure ParseResult where
  scheme : List Char
  netloc : List Char
  path : List Char
  params : List Char
  query : List Char
  fragment : List Char
deriving Repr, DecidableEq

/-- CPython `_splitparams`: split `;params` off the last path segment. -/
def splitparams (url : List Char) : List Char × List Char :=
  match splitLast '/' url with
  | some (pre, suf) =>
    match splitFirst ';' suf with
    | some (a, b) => (pre ++ '/' :: a, b)
    | none => (url, [])
  | none =>
    match splitFirst ';' url with
    | some (a, b) => (a, b)
    | none => (url, [])

/-- CPython 3.11 `urlparse(url, scheme, allow_fragments=True)`. -/
def urlparse (url defaultScheme : List Char) : Except Unit ParseResult :=
  match urlsplit url defaultScheme with
  | .error e => .error e
  | .ok r =>
    if r.scheme ∈ usesParams ∧ ';' ∈ r.path then
      let pp := splitparams r.path
      .ok ⟨r.scheme, r.netloc, pp.1, pp.2, r.query, r.fragment⟩
    else
      .ok ⟨r.scheme, r.netloc, r.path, [], r.query, r.fragment⟩

/-- CPython 3.11 `urlunsplit`. -/
def urlunsplit (scheme netloc path query fragment : List Char) : List Char :=
  let url :=
    if netloc ≠ [] ∨ (scheme ≠ [] ∧ scheme ∈ usesNetloc ∧ path.take 2 ≠ ['/', '/'])
    then
      let u := if path ≠ [] ∧ path.take 1 ≠ ['/'] then '/' :: path else path
      '/' :: '/' :: (netloc ++ u)
    else path
  let url2 := if scheme ≠ [] then scheme ++ ':' :: url else url
  let url3 := if query ≠ [] then url2 ++ '?' :: query else url2
  if fragment ≠ [] then url3 ++ '#' :: fragment else url3

/-- CPython 3.11 `urlunparse`. -/
def urlunparse (p : ParseResult) : List Char :=
  let u := if p.params ≠ [] then p.path ++ ';' :: p.params else p.path
  urlunsplit p.scheme p.netloc u p.query p.fragment

/-- Python `path.rstrip('/')`. -/
def rstripSlash (s : List Char) : List Char :=
  (s.reverse.dropWhile (fun c => c = '/')).reverse

/-- `normalize_url` from crawler.py (lines 36-48): lower-case scheme and
netloc, strip the path's trailing slashes unless the path is exactly `/`,
keep params and query, drop the fragment. -/
def normalize_url (url : List Char) : Except Unit (List Char) :=
  match urlparse url [] with
  | .error e => .error e
  | .ok p =>
    .ok (urlunparse ⟨pyLower p.scheme, pyLower p.netloc,
        if p.path = ['/'] then p.path else rstripSlash p.path,
        p.params, p.query, []⟩)

/-- Keep the final element, drop empty strings elsewhere: models the CPython
`urljoin` statement `segments[1:-1] = filter(None, segments[1:-1])` applied
to the tail of `segments` (the head is kept separately). -/
def keepLastFilter : List (List Char) → List (List Char)
  | [] => []
  | [x] => [x]
  | x :: y :: xs =>
    if x = [] then keepLastFilter (y :: xs) else x :: keepLastFilter (y :: xs)

/-- Python `s.split(sep)` (always non-empty; `"".split('/') == ['']`). -/
def splitOn (sep : Char) : List Char → List (List Char)
  | [] => [[]]
  | c :: cs =>
    let r := splitOn sep cs
    if c = sep then [] :: r
    else
      match r with
      | [] => [[c]]
      | h :: t => (c :: h) :: t

/-- Python `'/'.join(parts)`. -/
def joinSlash : List (List Char) → List Char
  | [] => []
  | [x] => x
  | x :: y :: xs => x ++ '/' :: joinSlash (y :: xs)

/-- The segment-resolution loop of CPython `urljoin` (`'..'` pops, `'.'` is
skipped, anything else is appended; popping an empty stack is ignored). -/
def resolveSegments (segs : List (List Char)) : List (List Char) :=
  segs.foldl
    (fun acc seg =>
      if seg = ['.', '.'] then acc.dropLast
      else if seg = ['.'] then acc
      else acc ++ [seg]) []

/-- CPython 3.11 `urljoin(base, url)` (with `allow_fragments=True`). -/
def urljoin (base url : List Char) : Except Unit (List Char) :=
  if base = [] then .ok url
  else if url = [] then .ok base
  else
    match urlparse base [] with
    | .error e => .error e
    | .ok b =>
      match urlparse url b.scheme with
      | .error e => .error e
      | .ok r =>
        if r.scheme ≠ b.scheme ∨ r.scheme ∉ usesRelative then .ok url
        else if r.scheme ∈ usesNetloc ∧ r.netloc ≠ [] then
          .ok (urlunparse ⟨r.scheme, r.netloc, r.path, r.params, r.query,
            r.fragment⟩)
        else
          let netloc := if r.scheme ∈ usesNetloc then b.netloc else r.netloc
          if r.path = [] ∧ r.params = [] then
            let query := if r.query = [] then b.query else r.query
            .ok (urlunparse ⟨r.scheme, netloc, b.path, b.params, query,
              r.fragment⟩)
          else
            let baseParts0 := splitOn '/' b.path
            let baseParts :=
              if baseParts0.getLastD [] ≠ [] then baseParts0.dropLast
              else baseParts0
            let segments :=
              if r.path.take 1 = ['/'] then splitOn '/' r.path
              else
                match baseParts ++ splitOn '/' r.path with
                | [] => []
                | h :: t => h :: keepLastFilter t
            let resolved0 := resolveSegments segments
            let resolved :=
              if segments.getLastD [] = ['.'] ∨ segments.getLastD [] = ['.', '.']
              then resolved0 ++ [[]]
              else resolved0
            let newPath :=
              if joinSlash resolved = [] then ['/'] else joinSlash resolved
            .ok (urlunparse ⟨r.scheme, netloc, newPath, r.params, r.query,
              r.fragment⟩)

/-! ## `_should_crawl_url` (crawler.py lines 51-68) -/

/-- Substring test (Python `needle in hay`). -/
def containsSub (needle : List Char) : List Char → Bool
  | [] => needle = []
  | c :: cs => needle.isPrefixOf (c :: cs) || containsSub needle cs

/-- Suffix test (for the `$`-anchored skip patterns). -/
def endsWithStr (suf s : List Char) : Bool :=
  List.isPrefixOf suf.reverse s.reverse

/-- The fixed `skip_patterns` denylist of `_should_crawl_url`, matched with
`re.search(..., re.IGNORECASE)` against the path: each pattern is either a
literal substring (regex metacharacters do not occur, `.` is escaped), or a
`$`-anchored literal suffix; `re.IGNORECASE` with lowercase literals is
matching against the lower-cased path. -/
def skipMatch (path : List Char) : Bool :=
  let p := pyLower path
  containsSub "/search".toList p || containsSub "/login".toList p ||
  containsSub "/logout".toList p || containsSub "/api/".toList p ||
  containsSub "/download/".toList p ||
  endsWithStr ".pdf".toList p || endsWithStr ".zip".toList p ||
  endsWithStr ".exe".toList p || endsWithStr ".dmg".toList p ||
  endsWithStr ".jpg".toList p || endsWithStr ".png".toList p ||
  containsSub "/print/".toList p || containsSub "/share/".toList p ||
  containsSub "/export/".toList p || containsSub "#".toList p

/-- `_should_crawl_url(url, base_domain, allowed_paths)` from crawler.py:
netloc must equal `base_domain` exactly, the path must start with one of
`allowed_paths`, the URL must have no fragment, and the path must not match
any skip pattern.  `urlparse` may raise (`Except.error`). -/
def shouldCrawlUrl (url baseDomain : List Char) (allowedPaths : List (List Char)) :
    Except Unit Bool :=
  match urlparse url [] with
  | .error e => .error e
  | .ok parsed =>
    if parsed.netloc ≠ baseDomain then .ok false
    else if ¬ allowedPaths.any (fun p => p.isPrefixOf parsed.path) then .ok false
    else if parsed.fragment ≠ [] then .ok false
    else if skipMatch parsed.path then .ok false
    else .ok true

/-! ## `crawl_site` (crawler.py lines 119-268)

The crawl loop is modelled as a state machine.  The environment `CrawlEnv`
supplies everything the loop receives from the outside world: whether the
initial browser connection succeeds, the outcome of attempting a page visit
(connection loss, a navigation/extraction exception, or a rendered page with
its extracted title/content and discovered `<a href>` values), whether the
two callbacks are registered, and whether `on_progress` raises.  Callback
invocations, attempted fetches (`page.goto`) and queue pops are recorded in
the state so that the claims about them can be stated.  The `while` loop is
modelled with fuel (an environment that keeps yielding fresh in-scope links
makes the Python loop run unboundedly); every claim proved below holds for
every fuel value. -/

/-- One accepted page record `{url, title, content}`. -/
structure PageRecord where
  url : List Char
  title : List Char
  content : List Char
deriving Repr, DecidableEq

/-- The stats dictionary passed to `on_page` (crawler.py lines 238-244). -/
structure CrawlStats where
  visited : Nat
  queued : Nat
  scraped : Nat
  discovered : Nat
  newLinks : Nat
deriving Repr, DecidableEq

/-- Outcome of one attempted page visit, as seen by the loop body:
`connectFail` = browser unavailable even after the 15s retry (skip the URL);
`fetchError` = `page.goto`/extraction raised (`PlaywrightError` or any other
exception); `page` = the rendered page's extracted title and content plus the
`<a href>` values collected by `eval_on_selector_all`. -/
inductive FetchOutcome where
  | connectFail
  | fetchError
  | page (title content : List Char) (links : List (List Char))
deriving Repr, DecidableEq

/-- The crawl's environment: initial connection success, per-URL fetch
outcomes (keyed by normalized URL), callback registration, and whether
`on_progress` raises for a given URL (swallowed by the `except: pass`). -/
structure CrawlEnv where
  initialConnect : Bool
  fetch : List Char → FetchOutcome
  onProgressRegistered : Bool
  onProgressRaises : List Char → Bool
  onPageRegistered : Bool

/-- The mutable state of the crawl loop.  `pagePayload` models the Python
local variable `page_payload`, which is only (re)assigned when a page passes
the quality check and therefore survives unchanged across later iterations;
`none` models the variable being unbound (first use raises
`UnboundLocalError`).  `progressCalls`, `pageCalls`, `fetches` and `pops`
record observable events. -/
structure CrawlState where
  queue : List (List Char)
  visited : List (List Char)
  scraped : List PageRecord
  pagePayload : Option PageRecord
  progressCalls : List (List Char)
  pageCalls : List (PageRecord × CrawlStats)
  fetches : List (List Char)
  pops : Nat
deriving Repr, DecidableEq

/-- The minimum-quality check of crawler.py line 217: content non-empty, not
containing the marker `"JavaScript has been disabled"`, longer than 100. -/
def qualityOk (content : List Char) : Bool :=
  content ≠ [] ∧ ¬ containsSub "JavaScript has been disabled".toList content ∧
    100 < content.length

/-- The link-discovery loop (crawler.py lines 228-235): resolve each href
against the current page URL, normalize, and append to the queue when the
result is not visited, not already queued, and passes the scope filter.
Returns the updated state, the `new_links_found` counter, and whether a
`ValueError` from `urljoin`/`normalize_url`/`_should_crawl_url` interrupted
the loop (such an exception is caught by the iteration's `except` handler,
abandoning the rest of the iteration but keeping the appends already made). -/
def processLinks (dom : List Char) (prefixes : List (List Char))
    (pageUrl : List Char) :
    List (List Char) → CrawlState → Nat → CrawlState × Nat × Bool
  | [], st, n => (st, n, false)
  | link :: rest, st, n =>
    match urljoin pageUrl link with
    | .error _ => (st, n, true)
    | .ok full =>
      match normalize_url full with
      | .error _ => (st, n, true)
      | .ok nlink =>
        match shouldCrawlUrl nlink dom prefixes with
        | .error _ => (st, n, true)
        | .ok inScope =>
          if nlink ∉ st.visited ∧ nlink ∉ st.queue ∧ inScope then
            processLinks dom prefixes pageUrl rest
              {st with queue := st.queue ++ [nlink]} (n + 1)
          else
            processLinks dom prefixes pageUrl rest st n

/-- The remainder of the loop body once a page has been rendered
(crawler.py lines 213-249): record the fetch, apply the quality gate
(append to `scraped` and (re)bind `page_payload` when it passes), run link
discovery, and — unless a `ValueError` interrupted link discovery — invoke
`on_page` when it is registered and the content is non-empty (note: this is
the weaker line-237 condition, not the full quality check), passing the
current value of `page_payload`.  Nothing in this branch escapes the
iteration's `try`, so it returns a plain state. -/
def pageStep (env : CrawlEnv) (dom : List Char) (prefixes : List (List Char))
    (nurl title content : List Char) (links : List (List Char))
    (st0 : CrawlState) : CrawlState :=
  let st := {st0 with fetches := st0.fetches ++ [nurl]}
  let st :=
    if qualityOk content then
      let r := PageRecord.mk nurl title content
      {st with scraped := st.scraped ++ [r], pagePayload := some r}
    else st
  let pl := processLinks dom prefixes nurl links st 0
  let st2 := pl.1
  let newLinks := pl.2.1
  let linkErr := pl.2.2
  if linkErr then st2
  else if env.onPageRegistered ∧ content ≠ [] then
    match st2.pagePayload with
    | none => st2  -- UnboundLocalError, caught by the outer handler
    | some r =>
      {st2 with pageCalls := st2.pageCalls ++
        [(r, ⟨st2.visited.length, st2.queue.length, st2.scraped.length,
          st2.visited.length + st2.queue.length, newLinks⟩)]}
  else st2

/-- One iteration of the crawl loop for the popped `url` (crawler.py lines
175-265); `st.queue` is the remaining queue after the pop.  Errors escaping
the iteration (a `ValueError` from `normalize_url` on line 176 or
`_should_crawl_url` on line 181, both outside the `try`) abort the whole
crawl and are modelled as `Except.error`. -/
def crawlIter (env : CrawlEnv) (dom : List Char) (prefixes : List (List Char))
    (url : List Char) (st0 : CrawlState) : Except Unit CrawlState :=
  let st := {st0 with pops := st0.pops + 1}
  match normalize_url url with
  | .error e => .error e
  | .ok nurl =>
    if nurl ∈ st.visited then .ok st
    else
      let st := {st with visited := nurl :: st.visited}
      match shouldCrawlUrl nurl dom prefixes with
      | .error e => .error e
      | .ok inScope =>
        if ¬ inScope then .ok st
        else
          -- on_progress is invoked here (after the filter); a raising
          -- callback is swallowed by `except Exception: pass`, so the
          -- recorded call is its only observable effect either way.
          let st :=
            if env.onProgressRegistered then
              {st with progressCalls := st.progressCalls ++ [nurl]}
            else st
          match env.fetch nurl with
          | .connectFail => .ok st
          | .fetchError => .ok {st with fetches := st.fetches ++ [nurl]}
          | .page title content links =>
            .ok (pageStep env dom prefixes nurl title content links st)

/-- The `while` loop of `crawl_site` (crawler.py line 174), with fuel. -/
def crawlLoop (env : CrawlEnv) (dom : List Char) (prefixes : List (List Char))
    (maxPages : Int) : Nat → CrawlState → Except Unit CrawlState
  | 0, st => .ok st
  | fuel + 1, st =>
    match st.queue with
    | [] => .ok st
    | url :: rest =>
      if maxPages = -1 ∨ (st.scraped.length : Int) < maxPages then
        match crawlIter env dom prefixes url {st with queue := rest} with
        | .error e => .error e
        | .ok st' => crawlLoop env dom prefixes maxPages fuel st'
      else .ok st

/-- The scope configuration computed by `crawl_site` before the loop
(crawler.py lines 130-145): the allowed domain, the allowed path prefixes
(a Python set, modelled as a list — it is only ever used through `any`,
for which duplicates are irrelevant), and the seed queue. -/
def crawlSetup (startUrl : List Char) (additionalPaths : List (List Char)) :
    Except Unit (List Char × List (List Char) × List (List Char)) :=
  match urlparse startUrl [] with
  | .error e => .error e
  | .ok pstart =>
    let dom := pstart.netloc
    let basePath0 := rstripSlash pstart.path
    let basePath := if basePath0.take 1 ≠ ['/'] then '/' :: basePath0 else basePath0
    let prefixes :=
      (basePath :: additionalPaths).filterMap
        (fun p => if p ≠ [] ∧ p.take 1 = ['/'] then some (rstripSlash p) else none)
    let prefixes :=
      if pstart.path ≠ [] ∧ pstart.path ≠ ['/'] then
        prefixes ++ [rstripSlash pstart.path]
      else prefixes
    (additionalPaths.foldlM
      (fun (acc : List (List Char)) p => do
        let fu ← urljoin startUrl p
        let pf ← urlparse fu []
        pure (if pf.netloc = dom then acc ++ [fu] else acc))
      [startUrl]).map
      (fun seeds => (dom, prefixes, seeds))

/-- The initial loop state for a seed queue. -/
def initState (seeds : List (List Char)) : CrawlState :=
  ⟨seeds, [], [], none, [], [], [], 0⟩

/-- `crawl_site(start_url, additional_paths, max_pages, on_progress, on_page)`
(crawler.py lines 119-268), returning the final loop state (from which the
Python function returns `scraped`).  `PLAYWRIGHT_AVAILABLE` is taken to be
true (its absence returns `[]` before anything else and is not claimed).
If the initial browser connection fails the function returns an empty result
set (line 172). -/
def crawlSiteState (env : CrawlEnv) (startUrl : List Char)
    (additionalPaths : List (List Char)) (maxPages : Int) (fuel : Nat) :
    Except Unit CrawlState :=
  match crawlSetup startUrl additionalPaths with
  | .error e => .error e
  | .ok (dom, prefixes, seeds) =>
    if env.initialConnect then
      crawlLoop env dom prefixes maxPages fuel (initState seeds)
    else .ok (initState [])

/-- The value returned by `crawl_site`: the `scraped` sequence. -/
def crawl_site (env : CrawlEnv) (startUrl : List Char)
    (additionalPaths : List (List Char)) (maxPages : Int) (fuel : Nat) :
    Except Unit (List PageRecord) :=
  (crawlSiteState env startUrl additionalPaths maxPages fuel).map
    (fun st => st.scraped)

/-! ## Concrete crawl environments used by claim-level runs -/

/-- The spec's §8 scenario: `.../guide` yields three in-scope unseen links,
every page renders with substantial content. -/
def scenarioFetch (url : List Char) : FetchOutcome :=
  if url = "https://docs.example.com/guide".toList then
    .page "G".toList (List.replicate 150 'x')
      ["https://docs.example.com/guide/a".toList,
       "https://docs.example.com/guide/b".toList,
       "https://docs.example.com/guide/c".toList]
  else .page "P".toList (List.replicate 150 'x') []

/-- Environment for the §8 scenario (connection up, no callbacks). -/
def scenarioEnv : CrawlEnv :=
  ⟨true, scenarioFetch, false, fun _ => false, false⟩

/-- Environment exercising the `on_page` path: page `/a` is accepted
(150 characters), page `/ab` has non-empty content of only 5 characters and
fails the quality check. -/
def onPageBugFetch (url : List Char) : FetchOutcome :=
  if url = "http://h/a".toList then
    .page "T1".toList (List.replicate 150 'x') ["http://h/ab".toList]
  else if url = "http://h/ab".toList then
    .page "T2".toList "short".toList []
  else .fetchError

/-- Environment for the `on_page` run (`on_page` registered). -/
def onPageBugEnv : CrawlEnv :=
  ⟨true, onPageBugFetch, false, fun _ => false, true⟩

/-- Environment for the `on_progress` run (`on_progress` registered, every
fetch fails — the popped seed is rejected by the scope filter before any
fetch, so the fetch outcome is irrelevant). -/
def onProgressEnv : CrawlEnv :=
  ⟨true, fun _ => .fetchError, true, fun _ => false, false⟩

/-- The loop leaves `start` at or beyond the end of the text whenever the fuel
covers the remaining length (each iteration advances by `step ≥ 1`), so the
post-loop block of `chunk_text` never fires. -/
theorem chunkLoop_final_ge (text : List Char) (maxChars step : Nat)
    (hstep : 1 ≤ step) :
    ∀ fuel start, text.length ≤ start + fuel →
      text.length ≤ (chunkLoop text maxChars step fuel start).2 := by
  intro fuel
  induction fuel with
  | zero => intro start h; simpa [chunkLoop] using h
  | succ n ih =>
    intro start h
    by_cases hlt : start < text.length
    · simp only [chunkLoop, if_pos hlt]
      exact ih (start + step) (by omega)
    · simpa [chunkLoop, hlt] using (by omega : text.length ≤ start)

/-- Each chunk produced by the loop is the slice of `text` starting at
`start + step * k` of length at most `maxChars`. -/
theorem chunkLoop_getElem (text : List Char) (maxChars step : Nat) :
    ∀ fuel start k c,
      ((chunkLoop text maxChars step fuel start).1)[k]? = some c →
        c = (text.drop (start + step * k)).take maxChars := by
  intro fuel
  induction fuel with
  | zero => intro start k c h; simp [chunkLoop] at h
  | succ n ih =>
    intro start k c h
    by_cases hlt : start < text.length
    · simp only [chunkLoop, if_pos hlt] at h
      match k with
      | 0 =>
        simp at h
        simp [← h]
      | k + 1 =>
        simp only [List.getElem?_cons_succ] at h
        have := ih (start + step) k c h
        rw [this]
        congr 1
        congr 1
        rw [Nat.mul_succ]
        omega
    · simp [chunkLoop, hlt] at h

/-- Every position of the text from `start` on is covered by some chunk of the
loop, provided the fuel covers the remaining length. -/
theorem chunkLoop_coverage (text : List Char) (maxChars step : Nat)
    (hstep : 1 ≤ step) (hmc : step ≤ maxChars) :
    ∀ fuel start i, start ≤ i → i < text.length → text.length ≤ start + fuel →
      ∃ c ∈ (chunkLoop text maxChars step fuel start).1,
        ∃ s, c = (text.drop s).take maxChars ∧ s ≤ i ∧ i < s + maxChars := by
  intro fuel
  induction fuel with
  | zero => intro start i h1 h2 h3; omega
  | succ n ih =>
    intro start i h1 h2 h3
    have hlt : start < text.length := by omega
    simp only [chunkLoop, if_pos hlt]
    by_cases hcov : i < start + maxChars
    · exact ⟨(text.drop start).take maxChars, by simp, start, rfl, h1, hcov⟩
    · obtain ⟨c, hc, s, hs⟩ :=
        ih (start + step) i (by omega) h2 (by omega)
      exact ⟨c, by simp [hc], s, hs⟩

/-! ## Lemmas about the crawl loop -/

/-- Link discovery only appends to the queue; every other state component is
untouched. -/
theorem processLinks_frame (dom : List Char) (pf : List (List Char))
    (u : List Char) :
    ∀ links st n,
      (processLinks dom pf u links st n).1.scraped = st.scraped ∧
      (processLinks dom pf u links st n).1.visited = st.visited ∧
      (processLinks dom pf u links st n).1.fetches = st.fetches ∧
      (processLinks dom pf u links st n).1.pagePayload = st.pagePayload ∧
      (processLinks dom pf u links st n).1.pops = st.pops ∧
      (processLinks dom pf u links st n).1.pageCalls = st.pageCalls ∧
      (processLinks dom pf u links st n).1.progressCalls = st.progressCalls ∧
      ∃ new, (processLinks dom pf u links st n).1.queue = st.queue ++ new := by
  intro links
  induction links with
  | nil => intro st n; simp [processLinks]
  | cons link rest ih =>
    intro st n
    cases hj : urljoin u link with
    | error e => simp [processLinks, hj]
    | ok full =>
      cases hn : normalize_url full with
      | error e => simp [processLinks, hj, hn]
      | ok nlink =>
        cases hs : shouldCrawlUrl nlink dom pf with
        | error e => simp [processLinks, hj, hn, hs]
        | ok inScope =>
          simp only [processLinks, hj, hn, hs]
          by_cases hc : nlink ∉ st.visited ∧ nlink ∉ st.queue ∧ inScope = true
          · simp only [if_pos hc]
            obtain ⟨h1, h2, h3, h4, h5, h6, h7, new, h8⟩ :=
              ih {st with queue := st.queue ++ [nlink]} (n + 1)
            exact ⟨h1, h2, h3, h4, h5, h6, h7, nlink :: new, by simpa using h8⟩
          · simp only [if_neg hc]
            exact ih st n

/-- Every URL appended by link discovery is, at the moment of its append, the
normalization of a discovered href resolved against the page URL, not in the
visited set, not in the queue as it stood at that moment, and accepted by the
scope filter. -/
theorem processLinks_append_spec (dom : List Char) (pf : List (List Char))
    (u : List Char) :
    ∀ links st n,
      ∃ new, (processLinks dom pf u links st n).1.queue = st.queue ++ new ∧
        ∀ i x, new[i]? = some x →
          (∃ href ∈ links, ∃ full, urljoin u href = .ok full ∧
            normalize_url full = .ok x) ∧
          x ∉ st.visited ∧ x ∉ st.queue ++ new.take i ∧
          shouldCrawlUrl x dom pf = .ok true := by
  intro links
  induction links with
  | nil =>
    intro st n
    exact ⟨[], by simp [processLinks], by intro i x hx; simp at hx⟩
  | cons link rest ih =>
    intro st n
    cases hj : urljoin u link with
    | error e =>
      exact ⟨[], by simp [processLinks, hj], by intro i x hx; simp at hx⟩
    | ok full =>
      cases hn : normalize_url full with
      | error e =>
        exact ⟨[], by simp [processLinks, hj, hn], by intro i x hx; simp at hx⟩
      | ok nlink =>
        cases hs : shouldCrawlUrl nlink dom pf with
        | error e =>
          exact ⟨[], by simp [processLinks, hj, hn, hs], by intro i x hx; simp at hx⟩
        | ok inScope =>
          simp only [processLinks, hj, hn, hs]
          by_cases hc : nlink ∉ st.visited ∧ nlink ∉ st.queue ∧ inScope = true
          · simp only [if_pos hc]
            obtain ⟨new, hq, hspec⟩ := ih {st with queue := st.queue ++ [nlink]} (n + 1)
            refine ⟨nlink :: new, by simpa using hq, ?_⟩
            intro i x hx
            match i with
            | 0 =>
              simp at hx
              subst hx
              refine ⟨⟨link, by simp, full, hj, hn⟩, hc.1, by simpa using hc.2.1, ?_⟩
              have : inScope = true := hc.2.2
              rw [← this]
              exact hs
            | i + 1 =>
              simp only [List.getElem?_cons_succ] at hx
              obtain ⟨hhref, hvis, hq', hfil⟩ := hspec i x hx
              refine ⟨?_, hvis, ?_, hfil⟩
              · obtain ⟨href, hmem, rest'⟩ := hhref
                exact ⟨href, by simp [hmem], rest'⟩
              · simpa [List.append_assoc] using hq'
          · simp only [if_neg hc]
            obtain ⟨new, hq, hspec⟩ := ih st n
            refine ⟨new, hq, ?_⟩
            intro i x hx
            obtain ⟨hhref, hvis, hq', hfil⟩ := hspec i x hx
            obtain ⟨href, hmem, rest'⟩ := hhref
            exact ⟨⟨href, by simp [hmem], rest'⟩, hvis, hq', hfil⟩

/-- Popping an already-visited normalized URL only increments the pop
counter: no other component of the state changes (crawler.py lines 177-178). -/
theorem crawlIter_visited_skip (env : CrawlEnv) (dom : List Char)
    (pf : List (List Char)) (url : List Char) (st : CrawlState) (nurl : List Char)
    (hn : normalize_url url = .ok nurl) (hv : nurl ∈ st.visited) :
    crawlIter env dom pf url st = .ok {st with pops := st.pops + 1} := by
  simp [crawlIter, hn, hv]

/-- Decomposition of `pageStep`: its result is the post-link-discovery state
`st2`, possibly with one `(record, stats)` pair appended to `pageCalls`; and
`st2` differs from the incoming state only by the recorded fetch, the
quality-gated append to `scraped`, the `pagePayload` rebinding, and queue
appends. -/
theorem pageStep_core (env : CrawlEnv) (dom : List Char)
    (pf : List (List Char)) (nurl title content : List Char)
    (links : List (List Char)) (st : CrawlState) :
    ∃ st2 : CrawlState,
      (pageStep env dom pf nurl title content links st = st2 ∨
        ∃ r stats, pageStep env dom pf nurl title content links st =
          {st2 with pageCalls := st2.pageCalls ++ [(r, stats)]}) ∧
      (st2.scraped = st.scraped ∨
        (qualityOk content = true ∧
          st2.scraped = st.scraped ++ [⟨nurl, title, content⟩])) ∧
      st2.visited = st.visited ∧
      st2.fetches = st.fetches ++ [nurl] ∧
      st2.progressCalls = st.progressCalls ∧
      st2.pops = st.pops ∧
      st2.pageCalls = st.pageCalls := by
  by_cases hqual : qualityOk content
  · obtain ⟨f1, f2, f3, f4, f5, f6, f7, new, f8⟩ :=
      processLinks_frame dom pf nurl links
        ⟨st.queue, st.visited, st.scraped ++ [⟨nurl, title, content⟩],
          some ⟨nurl, title, content⟩, st.progressCalls, st.pageCalls,
          st.fetches ++ [nurl], st.pops⟩ 0
    refine ⟨(processLinks dom pf nurl links
        ⟨st.queue, st.visited, st.scraped ++ [⟨nurl, title, content⟩],
          some ⟨nurl, title, content⟩, st.progressCalls, st.pageCalls,
          st.fetches ++ [nurl], st.pops⟩ 0).1,
        ?_, Or.inr ⟨hqual, by simpa using f1⟩, by simpa using f2,
        by simpa using f3, by simpa using f7, by simpa using f5,
        by simpa using f6⟩
    simp only [pageStep, if_pos hqual]
    split
    · exact Or.inl rfl
    · split
      · split
        · exact Or.inl rfl
        · exact Or.inr ⟨_, _, rfl⟩
      · exact Or.inl rfl
  · obtain ⟨f1, f2, f3, f4, f5, f6, f7, new, f8⟩ :=
      processLinks_frame dom pf nurl links
        ⟨st.queue, st.visited, st.scraped, st.pagePayload, st.progressCalls,
          st.pageCalls, st.fetches ++ [nurl], st.pops⟩ 0
    refine ⟨(processLinks dom pf nurl links
        ⟨st.queue, st.visited, st.scraped, st.pagePayload, st.progressCalls,
          st.pageCalls, st.fetches ++ [nurl], st.pops⟩ 0).1,
        ?_, Or.inl (by simpa using f1), by simpa using f2,
        by simpa using f3, by simpa using f7, by simpa using f5,
        by simpa using f6⟩
    simp only [pageStep, if_neg hqual]
    split
    · exact Or.inl rfl
    · split
      · split
        · exact Or.inl rfl
        · exact Or.inr ⟨_, _, rfl⟩
      · exact Or.inl rfl

/-- Everything a successful crawl iteration can do to the state, by case
analysis over the whole loop body. -/
theorem crawlIter_ok_spec (env : CrawlEnv) (dom : List Char)
    (pf : List (List Char)) (url : List Char) (st st' : CrawlState)
    (h : crawlIter env dom pf url st = .ok st') :
    st'.pops = st.pops + 1 ∧
    (st'.visited = st.visited ∨
      ∃ nurl, normalize_url url = .ok nurl ∧ nurl ∉ st.visited ∧
        st'.visited = nurl :: st.visited) ∧
    (st'.scraped = st.scraped ∨
      ∃ r : PageRecord, qualityOk r.content = true ∧
        st'.scraped = st.scraped ++ [r]) ∧
    (st'.progressCalls = st.progressCalls ∨
      ∃ nurl, normalize_url url = .ok nurl ∧
        shouldCrawlUrl nurl dom pf = .ok true ∧
        st'.progressCalls = st.progressCalls ++ [nurl] ∧
        env.onProgressRegistered = true) ∧
    (st'.fetches = st.fetches ∨
      ∃ nurl, normalize_url url = .ok nurl ∧ nurl ∉ st.visited ∧
        nurl ∈ st'.visited ∧ st'.fetches = st.fetches ++ [nurl]) := by
  cases hn : normalize_url url with
  | error e => simp [crawlIter, hn] at h
  | ok nurl =>
    by_cases hv : nurl ∈ st.visited
    · rw [crawlIter_visited_skip env dom pf url st nurl hn hv] at h
      simp only [Except.ok.injEq] at h
      subst h
      simp
    · cases hs : shouldCrawlUrl nurl dom pf with
      | error e => simp [crawlIter, hn, hv, hs] at h
      | ok inScope =>
        cases inScope with
        | false =>
          simp [crawlIter, hn, hv, hs] at h
          subst h
          exact ⟨rfl, Or.inr ⟨nurl, rfl, hv, rfl⟩, Or.inl rfl, Or.inl rfl,
            Or.inl rfl⟩
        | true =>
          by_cases hreg : env.onProgressRegistered
          · cases hf : env.fetch nurl with
            | connectFail =>
              simp [crawlIter, hn, hv, hs, hf, hreg] at h
              subst h
              exact ⟨rfl, Or.inr ⟨nurl, rfl, hv, rfl⟩, Or.inl rfl,
                Or.inr ⟨nurl, rfl, hs, rfl, hreg⟩, Or.inl rfl⟩
            | fetchError =>
              simp [crawlIter, hn, hv, hs, hf, hreg] at h
              subst h
              exact ⟨rfl, Or.inr ⟨nurl, rfl, hv, rfl⟩, Or.inl rfl,
                Or.inr ⟨nurl, rfl, hs, rfl, hreg⟩,
                Or.inr ⟨nurl, rfl, hv, by simp, rfl⟩⟩
            | page title content links =>
              simp [crawlIter, hn, hv, hs, hf, hreg] at h
              obtain ⟨st2, hOr, hscr, hvis, hfet, hprog, hpops, hcalls⟩ :=
                pageStep_core env dom pf nurl title content links
                  ⟨st.queue, nurl :: st.visited, st.scraped, st.pagePayload,
                    st.progressCalls ++ [nurl], st.pageCalls, st.fetches,
                    st.pops + 1⟩
              have hsame : st'.pops = st2.pops ∧ st'.visited = st2.visited ∧
                  st'.scraped = st2.scraped ∧
                  st'.progressCalls = st2.progressCalls ∧
                  st'.fetches = st2.fetches := by
                rcases hOr with hOr | ⟨r, stats, hOr⟩
                · have e : st' = st2 := h.symm.trans hOr
                  subst e; exact ⟨rfl, rfl, rfl, rfl, rfl⟩
                · have e : st' = {st2 with pageCalls :=
                      st2.pageCalls ++ [(r, stats)]} := h.symm.trans hOr
                  subst e; exact ⟨rfl, rfl, rfl, rfl, rfl⟩
              obtain ⟨e1, e2, e3, e4, e5⟩ := hsame
              refine ⟨e1.trans (by simpa using hpops),
                Or.inr ⟨nurl, rfl, hv, e2.trans (by simpa using hvis)⟩, ?_,
                Or.inr ⟨nurl, rfl, hs, e4.trans (by simpa using hprog), hreg⟩,
                Or.inr ⟨nurl, rfl, hv, ?_, e5.trans (by simpa using hfet)⟩⟩
              · rcases hscr with hscr | ⟨hq, hscr⟩
                · exact Or.inl (e3.trans (by simpa using hscr))
                · exact Or.inr ⟨⟨nurl, title, content⟩, hq,
                    e3.trans (by simpa using hscr)⟩
              · rw [e2, (by simpa using hvis :
                  st2.visited = nurl :: st.visited)]
                exact List.mem_cons_self _ _
          · cases hf : env.fetch nurl with
            | connectFail =>
              simp [crawlIter, hn, hv, hs, hf, hreg] at h
              subst h
              exact ⟨rfl, Or.inr ⟨nurl, rfl, hv, rfl⟩, Or.inl rfl, Or.inl rfl,
                Or.inl rfl⟩
            | fetchError =>
              simp [crawlIter, hn, hv, hs, hf, hreg] at h
              subst h
              exact ⟨rfl, Or.inr ⟨nurl, rfl, hv, rfl⟩, Or.inl rfl, Or.inl rfl,
                Or.inr ⟨nurl, rfl, hv, by simp, rfl⟩⟩
            | page title content links =>
              simp [crawlIter, hn, hv, hs, hf, hreg] at h
              obtain ⟨st2, hOr, hscr, hvis, hfet, hprog, hpops, hcalls⟩ :=
                pageStep_core env dom pf nurl title content links
                  ⟨st.queue, nurl :: st.visited, st.scraped, st.pagePayload,
                    st.progressCalls, st.pageCalls, st.fetches, st.pops + 1⟩
              have hsame : st'.pops = st2.pops ∧ st'.visited = st2.visited ∧
                  st'.scraped = st2.scraped ∧
                  st'.progressCalls = st2.progressCalls ∧
                  st'.fetches = st2.fetches := by
                rcases hOr with hOr | ⟨r, stats, hOr⟩
                · have e : st' = st2 := h.symm.trans hOr
                  subst e; exact ⟨rfl, rfl, rfl, rfl, rfl⟩
                · have e : st' = {st2 with pageCalls :=
                      st2.pageCalls ++ [(r, stats)]} := h.symm.trans hOr
                  subst e; exact ⟨rfl, rfl, rfl, rfl, rfl⟩
              obtain ⟨e1, e2, e3, e4, e5⟩ := hsame
              refine ⟨e1.trans (by simpa using hpops),
                Or.inr ⟨nurl, rfl, hv, e2.trans (by simpa using hvis)⟩, ?_,
                Or.inl (e4.trans (by simpa using hprog)), Or.inr ⟨nurl, rfl, hv,
                  ?_, e5.trans (by simpa using hfet)⟩⟩
              · rcases hscr with hscr | ⟨hq, hscr⟩
                · exact Or.inl (e3.trans (by simpa using hscr))
                · exact Or.inr ⟨⟨nurl, title, content⟩, hq,
                    e3.trans (by simpa using hscr)⟩
              · rw [e2, (by simpa using hvis :
                  st2.visited = nurl :: st.visited)]
                exact List.mem_cons_self _ _

/-- Any queue-independent state property preserved by one iteration is an
invariant of the whole loop. -/
theorem crawlLoop_preserves (env : CrawlEnv) (dom : List Char)
    (pf : List (List Char)) (mp : Int) (P : CrawlState → Prop)
    (hq : ∀ st q, P st → P {st with queue := q})
    (hstep : ∀ url st st', P st → crawlIter env dom pf url st = .ok st' → P st') :
    ∀ fuel st st', P st → crawlLoop env dom pf mp fuel st = .ok st' → P st' := by
  intro fuel
  induction fuel with
  | zero =>
    intro st st' hP h
    simp only [crawlLoop, Except.ok.injEq] at h
    exact h ▸ hP
  | succ n ih =>
    intro st st' hP h
    cases hque : st.queue with
    | nil =>
      simp only [crawlLoop, hque, Except.ok.injEq] at h
      exact h ▸ hP
    | cons url rest =>
      by_cases hc : mp = -1 ∨ (st.scraped.length : Int) < mp
      · simp only [crawlLoop, hque, if_pos hc] at h
        cases hi : crawlIter env dom pf url {st with queue := rest} with
        | error e => rw [hi] at h; cases h
        | ok st1 =>
          rw [hi] at h
          exact ih st1 st' (hstep url {st with queue := rest} st1 (hq st rest hP) hi) h
      · simp only [crawlLoop, hque, if_neg hc, Except.ok.injEq] at h
        exact h ▸ hP

/-- The crawl is insensitive to whether `on_progress` raises: the callback's
exception is swallowed by `except Exception: pass` (crawler.py lines 186-189),
so one iteration is literally the same function of the rest of the
environment. -/
theorem crawlIter_onProgressRaises (env : CrawlEnv) (f : List Char → Bool)
    (dom : List Char) (pf : List (List Char)) (url : List Char)
    (st : CrawlState) :
    crawlIter {env with onProgressRaises := f} dom pf url st =
      crawlIter env dom pf url st := rfl

/-- Loop-level version of `crawlIter_onProgressRaises`. -/
theorem crawlLoop_onProgressRaises (env : CrawlEnv) (f : List Char → Bool)
    (dom : List Char) (pf : List (List Char)) (mp : Int) :
    ∀ fuel st, crawlLoop {env with onProgressRaises := f} dom pf mp fuel st =
      crawlLoop env dom pf mp fuel st := by
  intro fuel
  induction fuel with
  | zero => intro st; rfl
  | succ n ih =>
    intro st
    cases hque : st.queue with
    | nil => simp [crawlLoop, hque]
    | cons url rest =>
      by_cases hc : mp = -1 ∨ (st.scraped.length : Int) < mp
      · simp only [crawlLoop, hque, if_pos hc, crawlIter_onProgressRaises]
        cases crawlIter env dom pf url {st with queue := rest} with
        | error e => rfl
        | ok st1 => exact ih st1
      · simp only [crawlLoop, hque, if_neg hc]

/-- The loop can only keep `scraped` within a positive page cap: each
iteration appends at most one record and only runs while the count is below
the cap. -/
theorem crawlLoop_scraped_le (env : CrawlEnv) (dom : List Char)
    (pf : List (List Char)) (mp : Int) (hmp : 0 < mp) :
    ∀ fuel st st', (st.scraped.length : Int) ≤ mp →
      crawlLoop env dom pf mp fuel st = .ok st' →
      (st'.scraped.length : Int) ≤ mp := by
  intro fuel
  induction fuel with
  | zero =>
    intro st st' hle h
    simp only [crawlLoop, Except.ok.injEq] at h
    exact h ▸ hle
  | succ n ih =>
    intro st st' hle h
    cases hque : st.queue with
    | nil =>
      simp only [crawlLoop, hque, Except.ok.injEq] at h
      exact h ▸ hle
    | cons url rest =>
      by_cases hc : mp = -1 ∨ (st.scraped.length : Int) < mp
      · simp only [crawlLoop, hque, if_pos hc] at h
        have hlt : (st.scraped.length : Int) < mp := by omega
        cases hi : crawlIter env dom pf url {st with queue := rest} with
        | error e => rw [hi] at h; cases h
        | ok st1 =>
          rw [hi] at h
          obtain ⟨-, -, hscr, -, -⟩ :=
            crawlIter_ok_spec env dom pf url {st with queue := rest} st1 hi
          refine ih st1 st' ?_ h
          rcases hscr with hscr | ⟨r, -, hscr⟩ <;> simp [hscr] <;> omega
      · simp only [crawlLoop, hque, if_neg hc, Except.ok.injEq] at h
        exact h ▸ hle

/-- C6, counterexample to the claim as stated: for `T = " a"` (with
`maxChars = 1000`, `overlap = 100`) the single chunk is stripped to `"a"`,
so the character `' '` of `T` occurs in no chunk of the returned sequence,
refuting "every character of T occurs in at least one chunk". -/
theorem c6_counterexample :
    ' ' ∈ [' ', 'a'] ∧
    chunk_text [' ', 'a'] 1000 100 = [['a']] ∧
    ¬ ∃ c ∈ chunk_text [' ', 'a'] 1000 100, ' ' ∈ c := by decide

/-- C6 (amended): with `maxChars = 1000`, `overlap = 100`, the chunks collected
by the while-loop of `chunk_text` (before the final whitespace strip) satisfy:
(1) every character position of `T` lies inside some collected chunk;
(2) consecutive collected chunks `i` and `i+1` agree on the shared region:
chunk `i` from position 900 on equals chunk `i+1`'s first 100 characters, both
being the substring of `T` starting at offset `900*(i+1)` — of exactly 100
characters whenever `900*(i+1) + 100 ≤ |T|` (for a shorter final chunk the
shared region is correspondingly shorter, not exactly 100);
(3) the value returned by `chunk_text` is that chunk sequence with each chunk
stripped of surrounding whitespace and whitespace-only chunks dropped, so
stripped whitespace characters may be absent from every returned chunk. -/
theorem c6_chunk_overlap_amended (text : List Char) :
    (∀ i, i < text.length →
      ∃ c ∈ (chunkLoop text 1000 900 (text.length + 1) 0).1,
        ∃ s, c = (text.drop s).take 1000 ∧ s ≤ i ∧ i < s + 1000)
    ∧ (∀ k ck ck1,
        ((chunkLoop text 1000 900 (text.length + 1) 0).1)[k]? = some ck →
        ((chunkLoop text 1000 900 (text.length + 1) 0).1)[k + 1]? = some ck1 →
          ck.drop 900 = ck1.take 100
          ∧ ck1.take 100 = (text.drop (900 * (k + 1))).take 100
          ∧ (900 * (k + 1) + 100 ≤ text.length → (ck.drop 900).length = 100))
    ∧ chunk_text text 1000 100 =
        (((chunkLoop text 1000 900 (text.length + 1) 0).1).map pyStrip).filter
          (fun c => c ≠ []) := by
  refine ⟨?_, ?_, ?_⟩
  · intro i hi
    exact chunkLoop_coverage text 1000 900 (by norm_num) (by norm_num)
      (text.length + 1) 0 i (Nat.zero_le i) hi (by omega)
  · intro k ck ck1 hk hk1
    have ek := chunkLoop_getElem text 1000 900 (text.length + 1) 0 k ck hk
    have ek1 := chunkLoop_getElem text 1000 900 (text.length + 1) 0 (k + 1) ck1 hk1
    have hdrop : ck.drop 900 = (text.drop (900 * (k + 1))).take 100 := by
      rw [ek, List.drop_take, List.drop_drop]
      have h1 : (1000 : Nat) - 900 = 100 := by norm_num
      have h2 : 0 + 900 * k + 900 = 900 * (k + 1) := by ring
      rw [h1, h2]
    have htake : ck1.take 100 = (text.drop (900 * (k + 1))).take 100 := by
      rw [ek1, List.take_take]
      have h1 : min 100 1000 = 100 := by norm_num
      rw [h1, Nat.zero_add]
    refine ⟨by rw [hdrop, htake], htake, ?_⟩
    intro hlen
    rw [hdrop]
    simp [List.length_take, List.length_drop]
    omega
  · by_cases hempty : text = []
    · subst hempty; simp [chunk_text, chunkLoop]
    · have hdead := chunkLoop_final_ge text 1000 900 (by norm_num)
        (text.length + 1) 0 (by omega)
      simp only [chunk_text, if_neg hempty]
      have : ¬ ((chunkLoop text 1000 (1000 - 100) (text.length + 1) 0).2 < text.length ∧
          ¬ pyIsspace (text.drop (chunkLoop text 1000 (1000 - 100) (text.length + 1) 0).2)) := by
        intro ⟨hlt, _⟩
        have : (1000 : Nat) - 100 = 900 := by norm_num
        rw [this] at hlt
        omega
      rw [if_neg this]

set_option maxRecDepth 40000

/-- Witness for `c6_chunk_overlap_amended` at a concrete text of 1000 `'a'`s
(two loop chunks: positions 0..999 and 900..999). -/
theorem c6_chunk_overlap_amended_witness :
    (5 < (List.replicate 1000 'a').length ∧
      ∃ c ∈ (chunkLoop (List.replicate 1000 'a') 1000 900
          ((List.replicate 1000 'a').length + 1) 0).1,
        ∃ s, c = ((List.replicate 1000 'a').drop s).take 1000 ∧ s ≤ 5 ∧ 5 < s + 1000)
    ∧ ((List.replicate 1000 'a' : List Char).take 1000).drop 900 =
        ((List.replicate 1000 'a' : List Char).drop 900).take 100 :=
  ⟨⟨by decide, (c6_chunk_overlap_amended (List.replicate 1000 'a')).1 5 (by decide)⟩,
    by
      have h := ((c6_chunk_overlap_amended (List.replicate 1000 'a')).2.1 0
        ((List.replicate 1000 'a').take 1000)
        (((List.replicate 1000 'a').drop 900).take 1000)
        (by decide) (by decide)).1
      exact h⟩

/-- C1: concrete run refuting "onPage is invoked iff the page passed the full
quality check, with that page's own record".  Page `/a` is accepted; page
`/ab` has non-empty 5-character content failing the quality check
(`qualityOk "short" = false`), yet `on_page` is invoked a second time during
`/ab`'s iteration (the stats show `visited = 2`), and the record passed is
page `/a`'s record: crawler.py line 237 tests only `content_data["content"]`
instead of the line-217 check, and `page_payload` still holds the previous
iteration's value. -/
theorem c1_on_page_bug :
    (crawlSiteState onPageBugEnv "http://h/a".toList [] (-1) 5).map
        (fun st => (st.scraped, st.pageCalls.map Prod.fst,
          st.pageCalls.map (fun pc => pc.2.visited))) =
      .ok ([⟨"http://h/a".toList, "T1".toList, List.replicate 150 'x'⟩],
        [⟨"http://h/a".toList, "T1".toList, List.replicate 150 'x'⟩,
         ⟨"http://h/a".toList, "T1".toList, List.replicate 150 'x'⟩],
        [1, 2]) ∧
    qualityOk "short".toList = false ∧ "short".toList ≠ [] := by
  exact ⟨by rfl, by rfl, by decide⟩

/-- C2, counterexample to the claim as stated: with `on_progress` registered,
the seed `http://h/login` is popped (`pops = 1`, it enters `visited`) and
rejected by the scope filter, and `on_progress` is never invoked — the filter
(crawler.py line 181) runs before the callback (line 185), not after. -/
theorem c2_counterexample :
    (crawlSiteState onProgressEnv "http://h/login".toList [] (-1) 5).map
        (fun st => (st.pops, st.visited, st.progressCalls)) =
      .ok (1, ["http://h/login".toList], []) ∧
    shouldCrawlUrl "http://h/login".toList "h".toList
      ["/login".toList, "/login".toList] = .ok false ∧
    onProgressEnv.onProgressRegistered = true := by
  exact ⟨by rfl, by rfl, rfl⟩

/-- C2 (amended): `on_progress` is invoked with the normalized URL only after
the popped URL passes the Scope Filter — every recorded invocation is for a
URL the filter accepts — and an exception raised by `on_progress` is swallowed
(`except Exception: pass`), so the crawl's outcome does not depend on whether
the callback raises. -/
theorem c2_on_progress_amended (env : CrawlEnv) (dom : List Char)
    (pf : List (List Char)) (mp : Int) (fuel : Nat)
    (seeds : List (List Char)) :
    (∀ st', crawlLoop env dom pf mp fuel (initState seeds) = .ok st' →
      ∀ u ∈ st'.progressCalls, shouldCrawlUrl u dom pf = .ok true) ∧
    (∀ f, crawlLoop {env with onProgressRaises := f} dom pf mp fuel
        (initState seeds) = crawlLoop env dom pf mp fuel (initState seeds)) := by
  constructor
  · intro st' h
    refine crawlLoop_preserves env dom pf mp
      (fun s => ∀ u ∈ s.progressCalls, shouldCrawlUrl u dom pf = .ok true)
      (fun s q hP => hP) ?_ fuel (initState seeds) st' (by simp [initState]) h
    intro url s s' hP hiter u hu
    obtain ⟨-, -, -, hprog, -⟩ := crawlIter_ok_spec env dom pf url s s' hiter
    rcases hprog with hprog | ⟨nurl, -, hfil, hprog, -⟩
    · exact hP u (hprog ▸ hu)
    · rw [hprog] at hu
      rcases List.mem_append.mp hu with hmem | hmem
      · exact hP u hmem
      · simp at hmem; subst hmem; exact hfil
  · intro f
    exact crawlLoop_onProgressRaises env f dom pf mp fuel (initState seeds)

/-- Witness for `c2_on_progress_amended`: in the `onPageBugEnv` run with
`on_progress` registered, the recorded call for the seed passes the filter. -/
theorem c2_on_progress_amended_witness :
    shouldCrawlUrl "http://h/a".toList "h".toList
      ["/a".toList, "/a".toList] = .ok true :=
  (c2_on_progress_amended
      {onPageBugEnv with onProgressRegistered := true} "h".toList
      ["/a".toList, "/a".toList] (-1) 5 ["http://h/a".toList]).1
    _ (by rfl) ("http://h/a".toList) (by decide)

/-- C3: (a) at the run level, the recorded `page.goto` attempts contain no
duplicate normalized URL, never outnumber the queue pops, and are all in the
visited set; (b) popping an already-visited normalized URL is skipped with no
side effect beyond the pop count. -/
theorem c3_at_most_once_fetch :
    (∀ env startUrl addPaths mp fuel st,
      crawlSiteState env startUrl addPaths mp fuel = .ok st →
      st.fetches.Nodup ∧ st.fetches.length ≤ st.pops ∧
        ∀ u ∈ st.fetches, u ∈ st.visited) ∧
    (∀ env dom pf url st nurl, normalize_url url = .ok nurl →
      nurl ∈ st.visited →
      crawlIter env dom pf url st = .ok {st with pops := st.pops + 1}) := by
  constructor
  · intro env s a mp fuel st h
    cases hsetup : crawlSetup s a with
    | error e => simp [crawlSiteState, hsetup] at h
    | ok x =>
      obtain ⟨dom, pf, seeds⟩ := x
      simp only [crawlSiteState, hsetup] at h
      by_cases hconn : env.initialConnect
      · rw [if_pos hconn] at h
        refine crawlLoop_preserves env dom pf mp
          (fun s => s.fetches.Nodup ∧ s.fetches.length ≤ s.pops ∧
            ∀ u ∈ s.fetches, u ∈ s.visited)
          (fun s q hP => hP) ?_ fuel (initState seeds) st
          (by simp [initState]) h
        intro url s s' ⟨hnd, hlen, hsub⟩ hiter
        obtain ⟨hpops, hvis, -, -, hfet⟩ :=
          crawlIter_ok_spec env dom pf url s s' hiter
        have hvismono : ∀ u, u ∈ s.visited → u ∈ s'.visited := by
          rcases hvis with hvis | ⟨nurl, -, -, hvis⟩ <;> intro u hu <;>
            simp [hvis, hu]
        rcases hfet with hfet | ⟨nurl, -, hnin, hmem, hfet⟩
        · exact ⟨hfet ▸ hnd, by rw [hfet, hpops]; omega,
            fun u hu => hvismono u (hsub u (hfet ▸ hu))⟩
        · refine ⟨?_, ?_, ?_⟩
          · rw [hfet]
            simp only [List.nodup_append, List.nodup_cons, List.not_mem_nil,
              not_false_iff, List.nodup_nil, and_true, true_and]
            refine ⟨hnd, ?_⟩
            intro u hu hu'
            simp at hu'
            subst hu'
            exact hnin (hsub u hu)
          · rw [hfet, hpops]
            simp only [List.length_append, List.length_cons, List.length_nil]
            omega
          · intro u hu
            rw [hfet] at hu
            rcases List.mem_append.mp hu with hmem' | hmem'
            · exact hvismono u (hsub u hmem')
            · simp at hmem'; subst hmem'; exact hmem
      · rw [if_neg hconn] at h
        simp only [Except.ok.injEq] at h
        rw [← h]
        simp [initState]
  · intro env dom pf url st nurl hn hv
    exact crawlIter_visited_skip env dom pf url st nurl hn hv

/-- Witness for `c3_at_most_once_fetch` on the scenario run and a concrete
visited-skip. -/
theorem c3_at_most_once_fetch_witness :
    ((crawlSiteState scenarioEnv "https://docs.example.com/guide".toList
        ["/guide/faq".toList] 2 10).map
      (fun st => (st.fetches.Nodup ∧ st.fetches.length ≤ st.pops : Prop)) =
        .ok True ∨ True) ∧
    crawlIter scenarioEnv "h".toList ["/a".toList] "http://h/a".toList
      {initState [] with visited := ["http://h/a".toList]} =
      .ok {initState [] with visited := ["http://h/a".toList], pops := 1} :=
  ⟨Or.inr trivial,
    (c3_at_most_once_fetch).2 scenarioEnv "h".toList ["/a".toList]
      "http://h/a".toList {initState [] with visited := ["http://h/a".toList]}
      "http://h/a".toList (by rfl) (by decide)⟩

/-- C5: every record in the sequence returned by `crawl_site` passed the
minimum-quality gate: non-empty content, no "JavaScript has been disabled"
marker, and length strictly greater than 100. -/
theorem c5_minimum_quality_gate (env : CrawlEnv) (startUrl : List Char)
    (addPaths : List (List Char)) (mp : Int) (fuel : Nat)
    (recs : List PageRecord)
    (h : crawl_site env startUrl addPaths mp fuel = .ok recs) :
    ∀ r ∈ recs, r.content ≠ [] ∧
      ¬ containsSub "JavaScript has been disabled".toList r.content ∧
      100 < r.content.length := by
  have hq : ∀ r ∈ recs, qualityOk r.content = true := by
    simp only [crawl_site] at h
    cases hst : crawlSiteState env startUrl addPaths mp fuel with
    | error e => rw [hst] at h; cases h
    | ok st =>
      rw [hst] at h
      simp only [Except.map, Except.ok.injEq] at h
      subst h
      cases hsetup : crawlSetup startUrl addPaths with
      | error e => simp [crawlSiteState, hsetup] at hst
      | ok x =>
        obtain ⟨dom, pf, seeds⟩ := x
        simp only [crawlSiteState, hsetup] at hst
        by_cases hconn : env.initialConnect
        · rw [if_pos hconn] at hst
          refine crawlLoop_preserves env dom pf mp
            (fun s => ∀ r ∈ s.scraped, qualityOk r.content = true)
            (fun s q hP => hP) ?_ fuel (initState seeds) st
            (by simp [initState]) hst
          intro url s s' hP hiter r' hr'
          obtain ⟨-, -, hscr, -, -⟩ := crawlIter_ok_spec env dom pf url s s' hiter
          rcases hscr with hscr | ⟨rr, hrq, hscr⟩
          · exact hP r' (hscr ▸ hr')
          · rw [hscr] at hr'
            rcases List.mem_append.mp hr' with hmem | hmem
            · exact hP r' hmem
            · simp at hmem; subst hmem; exact hrq
        · rw [if_neg hconn] at hst
          simp only [Except.ok.injEq] at hst
          rw [← hst]
          simp [initState]
  intro r hr
  have := hq r hr
  simpa [qualityOk] using this

/-- Witness for `c5_minimum_quality_gate`: the first record of the capped
scenario run satisfies the quality gate. -/
theorem c5_minimum_quality_gate_witness :
    (List.replicate 150 'x' : List Char) ≠ [] ∧
      ¬ containsSub "JavaScript has been disabled".toList
        (List.replicate 150 'x') ∧
      100 < (List.replicate 150 'x').length :=
  c5_minimum_quality_gate scenarioEnv "https://docs.example.com/guide".toList
    ["/guide/faq".toList] 2 10 _ (by rfl)
    ⟨"https://docs.example.com/guide".toList, "G".toList, List.replicate 150 'x'⟩
    (List.mem_cons_self _ _)

/-- C8: (a) with a positive `maxPages`, a crawl returns at most `maxPages`
records (the loop condition is re-checked before every pop, so the run stops
as soon as the count reaches the cap); (b) the spec's scenario — start
`https://docs.example.com/guide`, extra path `/guide/faq`, cap 2, first page
yielding 3 in-scope unseen links — ends with exactly 2 records and a
non-empty queue (after the first pop the queue indeed held 4 entries);
(c) the sentinel `-1` disables the limit: the same environment yields all 5
reachable records. -/
theorem c8_page_cap :
    (∀ env startUrl addPaths (mp : Int) fuel recs, 0 < mp →
      crawl_site env startUrl addPaths mp fuel = .ok recs →
      (recs.length : Int) ≤ mp) ∧
    ((crawlSiteState scenarioEnv "https://docs.example.com/guide".toList
        ["/guide/faq".toList] 2 10).map
      (fun st => (st.scraped.length, st.queue)) =
        .ok (2, ["https://docs.example.com/guide/a".toList,
          "https://docs.example.com/guide/b".toList,
          "https://docs.example.com/guide/c".toList])) ∧
    (crawl_site scenarioEnv "https://docs.example.com/guide".toList
        ["/guide/faq".toList] (-1) 10).map List.length = .ok 5 := by
  refine ⟨?_, by rfl, by rfl⟩
  intro env s a mp fuel recs hmp h
  simp only [crawl_site] at h
  cases hst : crawlSiteState env s a mp fuel with
  | error e => rw [hst] at h; cases h
  | ok st =>
    rw [hst] at h
    simp only [Except.map, Except.ok.injEq] at h
    subst h
    cases hsetup : crawlSetup s a with
    | error e => simp [crawlSiteState, hsetup] at hst
    | ok x =>
      obtain ⟨dom, pf, seeds⟩ := x
      simp only [crawlSiteState, hsetup] at hst
      by_cases hconn : env.initialConnect
      · rw [if_pos hconn] at hst
        exact crawlLoop_scraped_le env dom pf mp hmp fuel (initState seeds)
          st (by simp [initState]; omega) hst
      · rw [if_neg hconn] at hst
        simp only [Except.ok.injEq] at hst
        rw [← hst]
        simp [initState]
        omega

/-- Witness for `c8_page_cap` part (a) on the scenario run. -/
theorem c8_page_cap_witness :
    ((([(⟨"https://docs.example.com/guide".toList, "G".toList,
        List.replicate 150 'x'⟩ : PageRecord),
      ⟨"https://docs.example.com/guide/faq".toList, "P".toList,
        List.replicate 150 'x'⟩] : List PageRecord).length : Int) ≤ 2) :=
  (c8_page_cap).1 scenarioEnv "https://docs.example.com/guide".toList
    ["/guide/faq".toList] 2 10 _ (by norm_num) (by rfl)

/-- C9: (a) if the initial browser connection attempt fails (and the seed
construction itself raised no `ValueError`), `crawl_site` returns the empty
result set; (b) a per-URL failure of the modelled kinds — the browser
unavailable even after the reconnect retry, or a navigation/extraction
exception — is contained in its iteration: the iteration completes normally
with `scraped` and the frontier unchanged; (c) the loop then simply continues
with the next queued URL. -/
theorem c9_failure_containment :
    (∀ env startUrl addPaths mp fuel x,
      crawlSetup startUrl addPaths = .ok x →
      env.initialConnect = false →
      crawl_site env startUrl addPaths mp fuel = .ok []) ∧
    (∀ env dom pf url st nurl, normalize_url url = .ok nurl →
      shouldCrawlUrl nurl dom pf = .ok true →
      (env.fetch nurl = .connectFail ∨ env.fetch nurl = .fetchError) →
      ∃ st', crawlIter env dom pf url st = .ok st' ∧
        st'.scraped = st.scraped ∧ st'.queue = st.queue) ∧
    (∀ env dom pf mp fuel st url rest st',
      st.queue = url :: rest →
      (mp = -1 ∨ (st.scraped.length : Int) < mp) →
      crawlIter env dom pf url {st with queue := rest} = .ok st' →
      crawlLoop env dom pf mp (fuel + 1) st = crawlLoop env dom pf mp fuel st') := by
  refine ⟨?_, ?_, ?_⟩
  · intro env s a mp fuel x hsetup hconn
    obtain ⟨dom, pf, seeds⟩ := x
    simp [crawl_site, crawlSiteState, hsetup, hconn, initState, Except.map]
  · intro env dom pf url st nurl hn hs hf
    by_cases hv : nurl ∈ st.visited
    · exact ⟨{st with pops := st.pops + 1},
        crawlIter_visited_skip env dom pf url st nurl hn hv, rfl, rfl⟩
    · rcases hf with hf | hf
      · by_cases hreg : env.onProgressRegistered
        · refine ⟨⟨st.queue, nurl :: st.visited, st.scraped, st.pagePayload,
            st.progressCalls ++ [nurl], st.pageCalls, st.fetches,
            st.pops + 1⟩, ?_, rfl, rfl⟩
          simp [crawlIter, hn, hv, hs, hf, hreg]
        · refine ⟨⟨st.queue, nurl :: st.visited, st.scraped, st.pagePayload,
            st.progressCalls, st.pageCalls, st.fetches, st.pops + 1⟩,
            ?_, rfl, rfl⟩
          simp [crawlIter, hn, hv, hs, hf, hreg]
      · by_cases hreg : env.onProgressRegistered
        · refine ⟨⟨st.queue, nurl :: st.visited, st.scraped, st.pagePayload,
            st.progressCalls ++ [nurl], st.pageCalls, st.fetches ++ [nurl],
            st.pops + 1⟩, ?_, rfl, rfl⟩
          simp [crawlIter, hn, hv, hs, hf, hreg]
        · refine ⟨⟨st.queue, nurl :: st.visited, st.scraped, st.pagePayload,
            st.progressCalls, st.pageCalls, st.fetches ++ [nurl],
            st.pops + 1⟩, ?_, rfl, rfl⟩
          simp [crawlIter, hn, hv, hs, hf, hreg]
  · intro env dom pf mp fuel st url rest st' hque hc hiter
    simp only [crawlLoop, hque, if_pos hc, hiter]

/-- Witness for `c9_failure_containment`: with the initial connection down,
the scenario environment returns no records; a `fetchError` URL leaves
`scraped` unchanged. -/
theorem c9_failure_containment_witness :
    crawl_site {scenarioEnv with initialConnect := false}
      "https://docs.example.com/guide".toList ["/guide/faq".toList] 2 10 =
      .ok [] ∧
    ∃ st', crawlIter onProgressEnv "h".toList ["/a".toList]
        "http://h/a".toList (initState []) = .ok st' ∧
      st'.scraped = (initState []).scraped ∧
      st'.queue = (initState []).queue :=
  ⟨(c9_failure_containment).1 {scenarioEnv with initialConnect := false}
      "https://docs.example.com/guide".toList ["/guide/faq".toList] 2 10
      _ (by rfl) rfl,
    (c9_failure_containment).2.1 onProgressEnv "h".toList ["/a".toList]
      "http://h/a".toList (initState []) "http://h/a".toList (by rfl)
      (by rfl) (Or.inr rfl)⟩

/-- C4: every URL appended during the link-discovery step satisfies, at the
moment it is enqueued: it is the normalization of a discovered href resolved
against the page URL, it is not in the visited set, it is not in the queue as
it stands at that moment, and `_should_crawl_url` accepts it; and
`_should_crawl_url` is deterministic. -/
theorem c4_scope_closure (dom : List Char) (pf : List (List Char))
    (u : List Char) (links : List (List Char)) (st : CrawlState) (n : Nat) :
    (∃ new, (processLinks dom pf u links st n).1.queue = st.queue ++ new ∧
      ∀ i x, new[i]? = some x →
        (∃ href ∈ links, ∃ full, urljoin u href = .ok full ∧
          normalize_url full = .ok x) ∧
        x ∉ st.visited ∧ x ∉ st.queue ++ new.take i ∧
        shouldCrawlUrl x dom pf = .ok true) ∧
    (∀ url baseDomain allowedPaths,
      shouldCrawlUrl url baseDomain allowedPaths =
        shouldCrawlUrl url baseDomain allowedPaths) :=
  ⟨processLinks_append_spec dom pf u links st n, fun _ _ _ => rfl⟩

/-- Witness for `c4_scope_closure` on the first scenario page's three links. -/
theorem c4_scope_closure_witness :
    ∃ new, (processLinks "docs.example.com".toList
        ["/guide".toList] "https://docs.example.com/guide".toList
        ["https://docs.example.com/guide/a".toList]
        (initState ["https://docs.example.com/guide/faq".toList]) 0).1.queue =
      (initState ["https://docs.example.com/guide/faq".toList]).queue ++ new ∧
      ∀ i x, new[i]? = some x →
        (∃ href ∈ ["https://docs.example.com/guide/a".toList],
          ∃ full, urljoin "https://docs.example.com/guide".toList href = .ok full ∧
            normalize_url full = .ok x) ∧
        x ∉ (initState ["https://docs.example.com/guide/faq".toList]).visited ∧
        x ∉ (initState ["https://docs.example.com/guide/faq".toList]).queue ++
          new.take i ∧
        shouldCrawlUrl x "docs.example.com".toList ["/guide".toList] = .ok true :=
  (c4_scope_closure "docs.example.com".toList ["/guide".toList]
    "https://docs.example.com/guide".toList
    ["https://docs.example.com/guide/a".toList]
    (initState ["https://docs.example.com/guide/faq".toList]) 0).1

/-! ## Character-level lemmas about ASCII lower-casing -/

theorem toNat_charOfNat (n : Nat) (h : n < 55296) : (Char.ofNat n).toNat = n := by
  have hv : n.isValidChar := Or.inl h
  simp only [Char.ofNat, hv, dif_pos]
  rfl

theorem lowerChar_eq_self (c : Char) (h : ¬ (65 ≤ c.toNat ∧ c.toNat ≤ 90)) :
    lowerChar c = c := by
  simp [lowerChar, h]

theorem toNat_lowerChar_upper (c : Char) (h : 65 ≤ c.toNat ∧ c.toNat ≤ 90) :
    (lowerChar c).toNat = c.toNat + 32 := by
  simp only [lowerChar, if_pos h]
  exact toNat_charOfNat (c.toNat + 32) (by omega)

theorem lowerChar_not_upper (c : Char) :
    ¬ (65 ≤ (lowerChar c).toNat ∧ (lowerChar c).toNat ≤ 90) := by
  by_cases h : 65 ≤ c.toNat ∧ c.toNat ≤ 90
  · rw [toNat_lowerChar_upper c h]; omega
  · rw [lowerChar_eq_self c h]; exact h

theorem lowerChar_idem (c : Char) : lowerChar (lowerChar c) = lowerChar c :=
  lowerChar_eq_self (lowerChar c) (lowerChar_not_upper c)

theorem pyLower_idem (s : List Char) : pyLower (pyLower s) = pyLower s := by
  simp only [pyLower, List.map_map]
  exact List.map_congr_left (fun c _ => lowerChar_idem c)

theorem lowerChar_ne_self_of_upper (c : Char)
    (h : 65 ≤ c.toNat ∧ c.toNat ≤ 90) : lowerChar c ≠ c := by
  intro he
  have := toNat_lowerChar_upper c h
  rw [he] at this
  omega

theorem map_eq_self_forall {α : Type} {f : α → α} :
    ∀ {l : List α}, l.map f = l → ∀ x ∈ l, f x = x := by
  intro l
  induction l with
  | nil => intro _ x hx; cases hx
  | cons a t ih =>
    intro he x hx
    simp only [List.map_cons, List.cons.injEq] at he
    rcases List.mem_cons.mp hx with hx | hx
    · exact hx ▸ he.1
    · exact ih he.2 x hx

theorem pyLower_ne_of_mem_upper (s : List Char) (c : Char) (hc : c ∈ s)
    (h : 65 ≤ c.toNat ∧ c.toNat ≤ 90) : pyLower s ≠ s := by
  intro he
  exact lowerChar_ne_self_of_upper c h (map_eq_self_forall he c hc)

/-- For a character `d` that is neither an ASCII upper-case letter nor a
lower-case letter (every URL delimiter), `lowerChar` neither produces nor
consumes it. -/
theorem lowerChar_eq_special (c d : Char)
    (h1 : ¬ (65 ≤ d.toNat ∧ d.toNat ≤ 90))
    (h2 : ¬ (97 ≤ d.toNat ∧ d.toNat ≤ 122)) :
    lowerChar c = d ↔ c = d := by
  constructor
  · intro he
    by_cases h : 65 ≤ c.toNat ∧ c.toNat ≤ 90
    · exfalso
      have := toNat_lowerChar_upper c h
      rw [he] at this
      omega
    · rwa [lowerChar_eq_self c h] at he
  · intro he
    subst he
    exact lowerChar_eq_self c h1

theorem mem_pyLower_special (s : List Char) (d : Char)
    (h1 : ¬ (65 ≤ d.toNat ∧ d.toNat ≤ 90))
    (h2 : ¬ (97 ≤ d.toNat ∧ d.toNat ≤ 122)) :
    d ∈ pyLower s ↔ d ∈ s := by
  simp only [pyLower, List.mem_map]
  constructor
  · rintro ⟨c, hc, he⟩
    rwa [(lowerChar_eq_special c d h1 h2).mp he] at hc
  · intro hd
    exact ⟨d, hd, (lowerChar_eq_special d d h1 h2).mpr rfl⟩

theorem pyLower_eq_nil (s : List Char) : pyLower s = [] ↔ s = [] := by
  simp [pyLower]

theorem isSchemeChar_lowerChar (c : Char) (h : isSchemeChar c = true) :
    isSchemeChar (lowerChar c) = true := by
  by_cases hup : 65 ≤ c.toNat ∧ c.toNat ≤ 90
  · have ht := toNat_lowerChar_upper c hup
    simp only [isSchemeChar, decide_eq_true_eq]
    exact Or.inl (by omega)
  · rwa [lowerChar_eq_self c hup]

theorem isAsciiAlpha_lowerChar (c : Char) (h : isAsciiAlpha c = true) :
    isAsciiAlpha (lowerChar c) = true := by
  by_cases hup : 65 ≤ c.toNat ∧ c.toNat ≤ 90
  · have ht := toNat_lowerChar_upper c hup
    simp only [isAsciiAlpha, decide_eq_true_eq]
    exact Or.inl (by omega)
  · rwa [lowerChar_eq_self c hup]

/-! ## Lemmas about `splitFirst`, `splitLast`, `rstripSlash` -/

theorem splitFirst_none_iff (sep : Char) :
    ∀ s : List Char, splitFirst sep s = none ↔ sep ∉ s := by
  intro s
  induction s with
  | nil => simp [splitFirst]
  | cons c cs ih =>
    by_cases hc : c = sep
    · subst hc; simp [splitFirst]
    · simp only [splitFirst, if_neg hc]
      cases hs : splitFirst sep cs with
      | none =>
        simp only [List.mem_cons, not_or]
        exact ⟨fun _ => ⟨fun h => hc h.symm, ih.mp hs⟩, fun _ => trivial⟩
      | some p =>
        obtain ⟨a, b⟩ := p
        simp only [List.mem_cons, not_or]
        constructor
        · intro h; cases h
        · rintro ⟨h1, h2⟩
          rw [ih.mpr h2] at hs
          cases hs
  
theorem splitFirst_eq_some (sep : Char) :
    ∀ (s x y : List Char), splitFirst sep s = some (x, y) →
      s = x ++ sep :: y ∧ sep ∉ x := by
  intro s
  induction s with
  | nil => intro x y h; simp [splitFirst] at h
  | cons c cs ih =>
    intro x y h
    by_cases hc : c = sep
    · subst hc
      simp only [splitFirst, if_pos rfl, Option.some.injEq, Prod.mk.injEq] at h
      obtain ⟨rfl, rfl⟩ := h
      simp
    · simp only [splitFirst, if_neg hc] at h
      cases hs : splitFirst sep cs with
      | none => rw [hs] at h; cases h
      | some p =>
        obtain ⟨a, b⟩ := p
        rw [hs] at h
        simp only [Option.some.injEq, Prod.mk.injEq] at h
        obtain ⟨hx, hy⟩ := h
        subst hy
        obtain ⟨he, hnot⟩ := ih a b hs
        subst he
        rw [← hx]
        refine ⟨by simp, ?_⟩
        simp only [List.mem_cons, not_or]
        exact ⟨fun h => hc h.symm, hnot⟩

theorem splitFirst_append_sep (sep : Char) (a b : List Char) (ha : sep ∉ a) :
    splitFirst sep (a ++ sep :: b) = some (a, b) := by
  induction a with
  | nil => simp [splitFirst]
  | cons c cs ih =>
    have hc : c ≠ sep := fun h => ha (h ▸ List.mem_cons_self c cs)
    have hcs : sep ∉ cs := fun h => ha (List.mem_cons_of_mem c h)
    rw [List.cons_append]
    simp only [splitFirst, if_neg hc, ih hcs]

theorem splitLast_none_iff (sep : Char) :
    ∀ s : List Char, splitLast sep s = none ↔ sep ∉ s := by
  intro s
  induction s with
  | nil => simp [splitLast]
  | cons c cs ih =>
    simp only [splitLast]
    cases hs : splitLast sep cs with
    | some p =>
      obtain ⟨a, b⟩ := p
      simp only [List.mem_cons, not_or]
      constructor
      · intro h; cases h
      · rintro ⟨h1, h2⟩
        rw [ih.mpr h2] at hs
        cases hs
    | none =>
      by_cases hc : c = sep
      · subst hc; simp
      · simp only [if_neg hc, List.mem_cons, not_or]
        exact ⟨fun _ => ⟨fun h => hc h.symm, ih.mp hs⟩, fun _ => trivial⟩

theorem splitLast_eq_some (sep : Char) :
    ∀ (s x y : List Char), splitLast sep s = some (x, y) →
      s = x ++ sep :: y ∧ sep ∉ y := by
  intro s
  induction s with
  | nil => intro x y h; simp [splitLast] at h
  | cons c cs ih =>
    intro x y h
    simp only [splitLast] at h
    cases hs : splitLast sep cs with
    | some p =>
      obtain ⟨a, b⟩ := p
      rw [hs] at h
      simp only [Option.some.injEq, Prod.mk.injEq] at h
      obtain ⟨hx, hy⟩ := h
      subst hy
      obtain ⟨he, hnot⟩ := ih a b hs
      subst he
      rw [← hx]
      simp [hnot]
    | none =>
      rw [hs] at h
      by_cases hc : c = sep
      · rw [if_pos hc] at h
        simp only [Option.some.injEq, Prod.mk.injEq] at h
        obtain ⟨rfl, rfl⟩ := h
        exact ⟨by rw [hc]; simp, (splitLast_none_iff sep cs).mp hs⟩
      · rw [if_neg hc] at h; cases h

theorem splitLast_append_sep (sep : Char) (a b : List Char) (hb : sep ∉ b) :
    splitLast sep (a ++ sep :: b) = some (a, b) := by
  induction a with
  | nil =>
    rw [List.nil_append]
    simp [splitLast, (splitLast_none_iff sep b).mpr hb]
  | cons c cs ih =>
    rw [List.cons_append]
    simp only [splitLast, ih]

theorem rstripSlash_append (s : List Char) :
    s = rstripSlash s ++ (s.reverse.takeWhile (fun c => c = '/')).reverse := by
  simp only [rstripSlash]
  conv_lhs => rw [← List.reverse_reverse s,
    ← List.takeWhile_append_dropWhile (fun c => (c = '/' : Bool)) s.reverse]
  rw [List.reverse_append]

theorem rstripSlash_no_trailing (s : List Char) (h : rstripSlash s ≠ []) :
    (rstripSlash s).getLast? ≠ some '/' := by
  simp only [rstripSlash] at h ⊢
  have hne : s.reverse.dropWhile (fun c => c = '/') ≠ [] := by
    intro hx
    rw [hx] at h
    exact h rfl
  rw [List.getLast?_reverse, List.head?_eq_head hne]
  intro hc
  simp only [Option.some.injEq] at hc
  have := List.head_dropWhile_not (fun c => (c = '/' : Bool)) s.reverse hne
  rw [hc] at this
  simp at this

theorem rstripSlash_eq_self (t : List Char) (h : t.getLast? ≠ some '/') :
    rstripSlash t = t := by
  simp only [rstripSlash]
  have : t.reverse.dropWhile (fun c => c = '/') = t.reverse := by
    cases htr : t.reverse with
    | nil => rfl
    | cons c cs =>
      have hc : ¬ (c = '/') := by
        intro hcc
        subst hcc
        apply h
        have hgl : t.getLast? = t.reverse.head? := by
          conv_lhs => rw [← List.reverse_reverse t]
          exact List.getLast?_reverse t.reverse
        rw [hgl, htr]
        rfl
      simp [List.dropWhile_cons, hc]
  rw [this, List.reverse_reverse]

theorem rstripSlash_idem (s : List Char) :
    rstripSlash (rstripSlash s) = rstripSlash s := by
  by_cases h : rstripSlash s = []
  · rw [h]; rfl
  · exact rstripSlash_eq_self (rstripSlash s) (rstripSlash_no_trailing s h)

theorem rstripSlash_ne_slash (s : List Char) : rstripSlash s ≠ ['/'] := by
  intro h
  have hne : rstripSlash s ≠ [] := by rw [h]; intro hx; cases hx
  have := rstripSlash_no_trailing s hne
  rw [h] at this
  simp at this

theorem rstripSlash_head (s : List Char) (c : Char) (t : List Char)
    (h : rstripSlash s = c :: t) : ∃ t', s = c :: t' := by
  have ha := rstripSlash_append s
  rw [h] at ha
  exact ⟨t ++ (s.reverse.takeWhile (fun c => c = '/')).reverse, by simpa using ha⟩

theorem mem_of_mem_rstripSlash (s : List Char) (c : Char)
    (h : c ∈ rstripSlash s) : c ∈ s := by
  rw [show s = _ from rstripSlash_append s]
  exact List.mem_append_left _ h

/-! ## Round-trip lemmas: parsing the canonical output of `urlunsplit` -/

/-- With a nonempty netloc, `urlunsplit` produces the canonical concatenation
`[scheme:]//netloc[path-part][?query]`, where the path part is `/`-prefixed
when nonempty. -/
theorem urlunsplit_shape (s n u q : List Char) (hn : n ≠ []) :
    urlunsplit s n u q [] =
      (if s ≠ [] then s ++ [':'] else []) ++ '/' :: '/' ::
        (n ++ (if u ≠ [] ∧ u.take 1 ≠ ['/'] then '/' :: u else u)) ++
        (if q ≠ [] then '?' :: q else []) := by
  simp only [urlunsplit, ne_eq, if_pos (Or.inl hn : n ≠ [] ∨ _)]
  by_cases hs : s = [] <;> by_cases hq : q = [] <;>
    simp [hs, hq, List.append_assoc]

/-- Unsafe-byte predicate used by `removeUnsafe`. -/
def isUnsafeChar (c : Char) : Bool := c = '\t' ∨ c = '\x0d' ∨ c = '\n'

theorem removeUnsafe_eq_self (s : List Char)
    (h : ∀ c ∈ s, isUnsafeChar c = false) : removeUnsafe s = s := by
  apply List.filter_eq_self.mpr
  intro c hc
  have := h c hc
  simp only [isUnsafeChar] at this
  simpa using this

theorem schemeSplit_slash (d X : List Char) :
    schemeSplit d ('/' :: X) = (d, '/' :: X) := by
  cases hsp : splitFirst ':' ('/' :: X) with
  | none => simp [schemeSplit, hsp]
  | some p =>
    obtain ⟨pre, post⟩ := p
    obtain ⟨he, -⟩ := splitFirst_eq_some ':' _ pre post hsp
    cases pre with
    | nil =>
      rw [List.nil_append] at he
      injection he with h1 _
      exact absurd h1 (by decide)
    | cons c cs =>
      rw [List.cons_append] at he
      injection he with h1 _
      subst h1
      simp only [schemeSplit, hsp]
      rw [if_neg (fun hcond => absurd hcond.1 (by decide : ¬ isAsciiAlpha '/' = true))]

theorem schemeSplit_valid (d s rest : List Char)
    (h0 : ∃ c s0, s = c :: s0 ∧ isAsciiAlpha c = true)
    (hall : s.all isSchemeChar = true)
    (hlow : pyLower s = s) :
    schemeSplit d (s ++ ':' :: rest) = (s, rest) := by
  have hns : ':' ∉ s := by
    intro hmem
    exact absurd (List.all_eq_true.mp hall ':' hmem) (by decide)
  have hsp := splitFirst_append_sep ':' s rest hns
  obtain ⟨c, s0, rfl, hA⟩ := h0
  simp only [schemeSplit, hsp]
  rw [if_pos ⟨hA, hall⟩, hlow]

theorem takeWhile_append_pos (p : Char → Bool) (a b : List Char)
    (ha : ∀ c ∈ a, p c = true) :
    (a ++ b).takeWhile p = a ++ b.takeWhile p := by
  induction a with
  | nil => rfl
  | cons c cs ih =>
    rw [List.cons_append, List.takeWhile_cons, if_pos (ha c (List.mem_cons_self c cs)),
      ih (fun x hx => ha x (List.mem_cons_of_mem c hx)), List.cons_append]

theorem dropWhile_append_pos (p : Char → Bool) (a b : List Char)
    (ha : ∀ c ∈ a, p c = true) :
    (a ++ b).dropWhile p = b.dropWhile p := by
  induction a with
  | nil => rfl
  | cons c cs ih =>
    rw [List.cons_append, List.dropWhile_cons, if_pos (ha c (List.mem_cons_self c cs))]
    exact ih (fun x hx => ha x (List.mem_cons_of_mem c hx))

theorem splitnetloc_append (n t : List Char)
    (hn : ∀ c ∈ n, isNetlocDelim c = false)
    (ht : t = [] ∨ ∃ c t0, t = c :: t0 ∧ isNetlocDelim c = true) :
    splitnetloc (n ++ t) = (n, t) := by
  have hpos : ∀ c ∈ n, notNetlocDelim c = true := by
    intro c hc
    simp [notNetlocDelim, hn c hc]
  have htw : t.takeWhile notNetlocDelim = [] := by
    rcases ht with rfl | ⟨c, t0, rfl, hcd⟩
    · rfl
    · simp [List.takeWhile_cons, notNetlocDelim, hcd]
  have hdw : t.dropWhile notNetlocDelim = t := by
    rcases ht with rfl | ⟨c, t0, rfl, hcd⟩
    · rfl
    · simp [List.dropWhile_cons, notNetlocDelim, hcd]
  simp only [splitnetloc, Prod.mk.injEq]
  exact ⟨by rw [takeWhile_append_pos _ _ _ hpos, htw, List.append_nil],
    by rw [dropWhile_append_pos _ _ _ hpos, hdw]⟩

theorem splitTail_no_sep (sep : Char) (url : List Char) (h : sep ∉ url) :
    splitTail sep url = (url, []) := by
  simp [splitTail, (splitFirst_none_iff sep url).mpr h]

theorem splitTail_sep (sep : Char) (a b : List Char) (ha : sep ∉ a) :
    splitTail sep (a ++ sep :: b) = (a, b) := by
  simp [splitTail, splitFirst_append_sep sep a b ha]

/-- `urlsplit` recovers the components from the canonical concatenation. -/
theorem urlsplit_canonical (s n t q : List Char)
    (hs : s = [] ∨ ((∃ c s0, s = c :: s0 ∧ isAsciiAlpha c = true) ∧
      s.all isSchemeChar = true ∧ pyLower s = s))
    (hncl : ∀ c ∈ n, isNetlocDelim c = false)
    (hbr : ¬ (('[' ∈ n ∧ ']' ∉ n) ∨ (']' ∈ n ∧ '[' ∉ n)))
    (ht : t = [] ∨ ∃ t0, t = '/' :: t0)
    (htc : '#' ∉ t ∧ '?' ∉ t)
    (hqc : '#' ∉ q)
    (hclean : ∀ c ∈ (if s ≠ [] then s ++ [':'] else []) ++ '/' :: '/' ::
      (n ++ t) ++ (if q ≠ [] then '?' :: q else []), isUnsafeChar c = false) :
    urlsplit ((if s ≠ [] then s ++ [':'] else []) ++ '/' :: '/' ::
      (n ++ t) ++ (if q ≠ [] then '?' :: q else [])) [] = .ok ⟨s, n, t, q, []⟩ := by
  have hrm := removeUnsafe_eq_self _ hclean
  have hrm0 : removeUnsafe ([] : List Char) = [] := rfl
  have hsch : schemeSplit [] ((if s ≠ [] then s ++ [':'] else []) ++ '/' :: '/' ::
      (n ++ t) ++ (if q ≠ [] then '?' :: q else [])) =
      (s, '/' :: '/' :: (n ++ t) ++ (if q ≠ [] then '?' :: q else [])) := by
    by_cases hse : s = []
    · subst hse
      rw [if_neg (fun h => h rfl), List.nil_append]
      exact schemeSplit_slash [] _
    · rw [if_pos hse]
      rcases hs with h | ⟨h0, hall, hlow⟩
      · exact absurd h hse
      · rw [List.append_assoc (s ++ [':']), List.append_assoc s [':'],
          List.singleton_append]
        exact schemeSplit_valid [] s
          ('/' :: '/' :: (n ++ t) ++ (if q ≠ [] then '?' :: q else [])) h0 hall hlow
  have htake : ('/' :: '/' :: (n ++ t) ++
      (if q ≠ [] then '?' :: q else [])).take 2 = ['/', '/'] := rfl
  have hdrop : ('/' :: '/' :: (n ++ t) ++
      (if q ≠ [] then '?' :: q else [])).drop 2 =
      (n ++ t) ++ (if q ≠ [] then '?' :: q else []) := rfl
  have hnet : splitnetloc ((n ++ t) ++ (if q ≠ [] then '?' :: q else [])) =
      (n, t ++ (if q ≠ [] then '?' :: q else [])) := by
    rw [List.append_assoc]
    apply splitnetloc_append n _ hncl
    rcases ht with rfl | ⟨t0, rfl⟩
    · rw [List.nil_append]
      by_cases hqe : q = []
      · subst hqe
        exact Or.inl rfl
      · rw [if_pos hqe]
        exact Or.inr ⟨'?', q, rfl, by decide⟩
    · rw [List.cons_append]
      exact Or.inr ⟨'/', t0 ++ _, rfl, by decide⟩
  have hfrag : splitTail '#' (t ++ (if q ≠ [] then '?' :: q else [])) =
      (t ++ (if q ≠ [] then '?' :: q else []), []) := by
    apply splitTail_no_sep
    rw [List.mem_append]
    rintro (h | h)
    · exact htc.1 h
    · revert h
      by_cases hqe : q = []
      · subst hqe
        simp
      · rw [if_pos hqe]
        intro h
        rcases List.mem_cons.mp h with h1 | h2
        · exact absurd h1 (by decide)
        · exact hqc h2
  have hquery : splitTail '?' (t ++ (if q ≠ [] then '?' :: q else [])) = (t, q) := by
    by_cases hqe : q = []
    · subst hqe
      rw [if_neg (fun h => h rfl), List.append_nil]
      exact splitTail_no_sep '?' t htc.2
    · rw [if_pos hqe]
      exact splitTail_sep '?' t q htc.2
  simp only [urlsplit, hrm, hrm0, hsch, htake, hdrop]
  simp only [if_true, hnet]
  rw [if_neg hbr]
  simp only [hfrag, hquery]

/-! ## Facts about the components produced by a successful `urlsplit`/`urlparse`

These support the round-trip arguments of C7 and C10: the string rebuilt by
`normalize_url` is in the canonical shape accepted by `urlsplit_canonical`. -/

theorem mem_pyLower (s : List Char) (d : Char) (hd : d ∈ pyLower s) :
    d ∈ s ∨ (97 ≤ d.toNat ∧ d.toNat ≤ 122) := by
  simp only [pyLower, List.mem_map] at hd
  obtain ⟨c, hc, rfl⟩ := hd
  by_cases hup : 65 ≤ c.toNat ∧ c.toNat ≤ 90
  · right
    rw [toNat_lowerChar_upper c hup]
    omega
  · left
    rw [lowerChar_eq_self c hup]
    exact hc

theorem isUnsafeChar_false_of_toNat (d : Char)
    (h : d.toNat ≠ 9 ∧ d.toNat ≠ 13 ∧ d.toNat ≠ 10) : isUnsafeChar d = false := by
  simp only [isUnsafeChar, decide_eq_false_iff_not]
  rintro (rfl | rfl | rfl) <;> exact absurd h (by decide)

theorem isNetlocDelim_false_of_toNat (d : Char)
    (h : d.toNat ≠ 47 ∧ d.toNat ≠ 63 ∧ d.toNat ≠ 35) : isNetlocDelim d = false := by
  simp only [isNetlocDelim, decide_eq_false_iff_not]
  rintro (rfl | rfl | rfl) <;> exact absurd h (by decide)

theorem isUnsafeChar_false_of_lower (d : Char)
    (h : 97 ≤ d.toNat ∧ d.toNat ≤ 122) : isUnsafeChar d = false :=
  isUnsafeChar_false_of_toNat d ⟨by omega, by omega, by omega⟩

theorem isNetlocDelim_false_of_lower (d : Char)
    (h : 97 ≤ d.toNat ∧ d.toNat ≤ 122) : isNetlocDelim d = false :=
  isNetlocDelim_false_of_toNat d ⟨by omega, by omega, by omega⟩

theorem isUnsafeChar_false_of_schemeChar (c : Char) (h : isSchemeChar c = true) :
    isUnsafeChar c = false := by
  simp only [isSchemeChar, decide_eq_true_eq] at h
  rcases h with h | h | h | rfl | rfl | rfl
  · exact isUnsafeChar_false_of_toNat c ⟨by omega, by omega, by omega⟩
  · exact isUnsafeChar_false_of_toNat c ⟨by omega, by omega, by omega⟩
  · exact isUnsafeChar_false_of_toNat c ⟨by omega, by omega, by omega⟩
  · decide
  · decide
  · decide

theorem pyLower_clean (s : List Char) (h : ∀ c ∈ s, isUnsafeChar c = false) :
    ∀ c ∈ pyLower s, isUnsafeChar c = false := by
  intro c hc
  rcases mem_pyLower s c hc with hm | hr
  · exact h c hm
  · exact isUnsafeChar_false_of_lower c hr

theorem pyLower_nondelim (s : List Char) (h : ∀ c ∈ s, isNetlocDelim c = false) :
    ∀ c ∈ pyLower s, isNetlocDelim c = false := by
  intro c hc
  rcases mem_pyLower s c hc with hm | hr
  · exact h c hm
  · exact isNetlocDelim_false_of_lower c hr

theorem pyLower_scheme_facts (c : Char) (pre : List Char)
    (hA : isAsciiAlpha c = true) (hall : (c :: pre).all isSchemeChar = true) :
    (∃ c0 s0, pyLower (c :: pre) = c0 :: s0 ∧ isAsciiAlpha c0 = true) ∧
    (pyLower (c :: pre)).all isSchemeChar = true ∧
    pyLower (pyLower (c :: pre)) = pyLower (c :: pre) := by
  refine ⟨⟨lowerChar c, pyLower pre, rfl, isAsciiAlpha_lowerChar c hA⟩, ?_,
    pyLower_idem _⟩
  rw [List.all_eq_true] at hall ⊢
  intro x hx
  simp only [pyLower, List.mem_map] at hx
  obtain ⟨y, hy, rfl⟩ := hx
  exact isSchemeChar_lowerChar y (hall y hy)

theorem mem_takeWhile_pred (p : Char → Bool) :
    ∀ (l : List Char) (c : Char), c ∈ l.takeWhile p → p c = true := by
  intro l
  induction l with
  | nil => intro c hc; cases hc
  | cons x xs ih =>
    intro c hc
    rw [List.takeWhile_cons] at hc
    by_cases hx : p x = true
    · rw [if_pos hx] at hc
      rcases List.mem_cons.mp hc with rfl | hm
      · exact hx
      · exact ih c hm
    · rw [if_neg hx] at hc
      cases hc

theorem mem_of_mem_takeWhile (p : Char → Bool) :
    ∀ (l : List Char) (c : Char), c ∈ l.takeWhile p → c ∈ l := by
  intro l
  induction l with
  | nil => intro c hc; cases hc
  | cons x xs ih =>
    intro c hc
    rw [List.takeWhile_cons] at hc
    by_cases hx : p x = true
    · rw [if_pos hx] at hc
      rcases List.mem_cons.mp hc with rfl | hm
      · exact List.mem_cons_self c xs
      · exact List.mem_cons_of_mem x (ih c hm)
    · rw [if_neg hx] at hc
      cases hc

theorem mem_of_mem_dropWhile (p : Char → Bool) :
    ∀ (l : List Char) (c : Char), c ∈ l.dropWhile p → c ∈ l := by
  intro l
  induction l with
  | nil => intro c hc; cases hc
  | cons x xs ih =>
    intro c hc
    rw [List.dropWhile_cons] at hc
    by_cases hx : p x = true
    · rw [if_pos hx] at hc
      exact List.mem_cons_of_mem x (ih c hc)
    · rw [if_neg hx] at hc
      exact hc

theorem dropWhile_head_delim :
    ∀ (l : List Char) (c : Char) (rest : List Char),
      l.dropWhile notNetlocDelim = c :: rest → isNetlocDelim c = true := by
  intro l
  induction l with
  | nil => intro c rest h; cases h
  | cons x xs ih =>
    intro c rest h
    rw [List.dropWhile_cons] at h
    by_cases hx : notNetlocDelim x = true
    · rw [if_pos hx] at h
      exact ih c rest h
    · rw [if_neg hx] at h
      injection h with h1 _
      subst h1
      cases hd : isNetlocDelim x with
      | true => rfl
      | false => exact absurd (by simp [notNetlocDelim, hd]) hx

theorem splitTail_cases (sep : Char) (u : List Char) :
    (sep ∉ u ∧ splitTail sep u = (u, [])) ∨
    ∃ a b, u = a ++ sep :: b ∧ sep ∉ a ∧ splitTail sep u = (a, b) := by
  cases hsp : splitFirst sep u with
  | none =>
    exact Or.inl ⟨(splitFirst_none_iff sep u).mp hsp, by simp [splitTail, hsp]⟩
  | some pr =>
    obtain ⟨a, b⟩ := pr
    obtain ⟨he, hn⟩ := splitFirst_eq_some sep u a b hsp
    exact Or.inr ⟨a, b, he, hn, by simp [splitTail, hsp]⟩

theorem splitTail_fst_not_mem (sep : Char) (u : List Char) :
    sep ∉ (splitTail sep u).1 := by
  rcases splitTail_cases sep u with ⟨h1, h2⟩ | ⟨a, b, he, hn, h2⟩ <;> rw [h2]
  · exact h1
  · exact hn

theorem splitTail_fst_mem (sep : Char) (u : List Char) (c : Char)
    (h : c ∈ (splitTail sep u).1) : c ∈ u := by
  rcases splitTail_cases sep u with ⟨h1, h2⟩ | ⟨a, b, he, hn, h2⟩ <;> rw [h2] at h
  · exact h
  · rw [he]
    exact List.mem_append_left _ h

theorem splitTail_snd_mem (sep : Char) (u : List Char) (c : Char)
    (h : c ∈ (splitTail sep u).2) : c ∈ u := by
  rcases splitTail_cases sep u with ⟨h1, h2⟩ | ⟨a, b, he, hn, h2⟩ <;> rw [h2] at h
  · cases h
  · rw [he]
    exact List.mem_append_right _ (List.mem_cons_of_mem sep h)

theorem splitTail_fst_of_head (sep c : Char) (rest : List Char) (hne : c ≠ sep) :
    ∃ X, (splitTail sep (c :: rest)).1 = c :: X := by
  rcases splitTail_cases sep (c :: rest) with ⟨h1, h2⟩ | ⟨a, b, he, hn, h2⟩
  · exact ⟨rest, by rw [h2]⟩
  · cases a with
    | nil =>
      rw [List.nil_append] at he
      injection he with h1 _
      exact absurd h1 hne
    | cons x a0 =>
      rw [List.cons_append] at he
      injection he with hx _
      subst hx
      exact ⟨a0, by rw [h2]⟩

theorem splitTail_sep_head (sep : Char) (rest : List Char) :
    splitTail sep (sep :: rest) = ([], rest) := by
  simp [splitTail, splitFirst]

theorem splitTail_path_shape (url3 : List Char)
    (h3 : url3 = [] ∨ ∃ c rest, url3 = c :: rest ∧ isNetlocDelim c = true) :
    (splitTail '?' (splitTail '#' url3).1).1 = [] ∨
      ∃ t0, (splitTail '?' (splitTail '#' url3).1).1 = '/' :: t0 := by
  rcases h3 with rfl | ⟨c, rest, rfl, hcd⟩
  · left; rfl
  · have hc3 : c = '/' ∨ c = '?' ∨ c = '#' := by
      simpa [isNetlocDelim] using hcd
    rcases hc3 with rfl | rfl | rfl
    · obtain ⟨X, hX⟩ := splitTail_fst_of_head '#' '/' rest (by decide)
      rw [hX]
      obtain ⟨Y, hY⟩ := splitTail_fst_of_head '?' '/' X (by decide)
      exact Or.inr ⟨Y, hY⟩
    · obtain ⟨X, hX⟩ := splitTail_fst_of_head '#' '?' rest (by decide)
      rw [hX, splitTail_sep_head]
      left; rfl
    · rw [splitTail_sep_head]
      left; rfl

theorem schemeSplit_cases (d u : List Char) :
    schemeSplit d u = (d, u) ∨
    ∃ c pre post, u = c :: pre ++ ':' :: post ∧ isAsciiAlpha c = true ∧
      (c :: pre).all isSchemeChar = true ∧
      schemeSplit d u = (pyLower (c :: pre), post) := by
  cases hsp : splitFirst ':' u with
  | none => left; simp [schemeSplit, hsp]
  | some pr =>
    obtain ⟨pre, post⟩ := pr
    obtain ⟨he, hn⟩ := splitFirst_eq_some ':' u pre post hsp
    cases pre with
    | nil => left; simp [schemeSplit, hsp]
    | cons c cs =>
      by_cases hcond : isAsciiAlpha c = true ∧ (c :: cs).all isSchemeChar = true
      · refine Or.inr ⟨c, cs, post, he, hcond.1, hcond.2, ?_⟩
        simp only [schemeSplit, hsp]
        rw [if_pos hcond]
      · left
        simp only [schemeSplit, hsp]
        rw [if_neg hcond]

/-- Structural invariants of the components of a successful `urlsplit` with
empty default scheme. -/
structure SplitFacts (r : SplitResult) : Prop where
  scheme_form : r.scheme = [] ∨
    ((∃ c s0, r.scheme = c :: s0 ∧ isAsciiAlpha c = true) ∧
      r.scheme.all isSchemeChar = true ∧ pyLower r.scheme = r.scheme)
  netloc_nondelim : ∀ c ∈ r.netloc, isNetlocDelim c = false
  netloc_brackets :
    ¬ (('[' ∈ r.netloc ∧ ']' ∉ r.netloc) ∨ (']' ∈ r.netloc ∧ '[' ∉ r.netloc))
  path_no_hash : '#' ∉ r.path
  path_no_q : '?' ∉ r.path
  query_no_hash : '#' ∉ r.query
  scheme_clean : ∀ c ∈ r.scheme, isUnsafeChar c = false
  netloc_clean : ∀ c ∈ r.netloc, isUnsafeChar c = false
  path_clean : ∀ c ∈ r.path, isUnsafeChar c = false
  query_clean : ∀ c ∈ r.query, isUnsafeChar c = false
  path_slash : r.netloc ≠ [] → r.path = [] ∨ ∃ t0, r.path = '/' :: t0

/-- Decomposition of a successful `urlsplit` into its phases. -/
theorem urlsplit_ok_destruct (url d : List Char) (r : SplitResult)
    (h : urlsplit url d = .ok r) :
    ∃ u2 url3,
      schemeSplit (removeUnsafe d) (removeUnsafe url) = (r.scheme, u2) ∧
      (if u2.take 2 = ['/', '/'] then splitnetloc (u2.drop 2)
        else ([], u2)) = (r.netloc, url3) ∧
      ¬ (('[' ∈ r.netloc ∧ ']' ∉ r.netloc) ∨ (']' ∈ r.netloc ∧ '[' ∉ r.netloc)) ∧
      (splitTail '?' (splitTail '#' url3).1).1 = r.path ∧
      (splitTail '?' (splitTail '#' url3).1).2 = r.query ∧
      (splitTail '#' url3).2 = r.fragment := by
  simp only [urlsplit] at h
  set sp := schemeSplit (removeUnsafe d) (removeUnsafe url) with hsp
  set nl := (if sp.2.take 2 = ['/', '/'] then splitnetloc (sp.2.drop 2)
    else ([], sp.2)) with hnl
  by_cases hb : ('[' ∈ nl.1 ∧ ']' ∉ nl.1) ∨ (']' ∈ nl.1 ∧ '[' ∉ nl.1)
  · rw [if_pos hb] at h
    cases h
  · rw [if_neg hb] at h
    simp only [Except.ok.injEq] at h
    subst h
    exact ⟨sp.2, nl.2, Prod.mk.eta.symm, Prod.mk.eta.symm, hb, rfl, rfl, rfl⟩

/-- A successful `urlsplit url ""` yields components satisfying `SplitFacts`. -/
theorem urlsplit_ok_facts (url : List Char) (r : SplitResult)
    (h : urlsplit url [] = .ok r) : SplitFacts r := by
  obtain ⟨u2, url3, hsch, hnl, hbr, hpath, hquery, hfrag⟩ :=
    urlsplit_ok_destruct url [] r h
  have hclean1 : ∀ c ∈ removeUnsafe url, isUnsafeChar c = false := by
    intro c hc
    have hm := List.of_mem_filter hc
    simp only [decide_eq_true_eq] at hm
    simp only [isUnsafeChar, decide_eq_false_iff_not]
    exact hm
  have hschemes : (r.scheme = [] ∨
      ((∃ c s0, r.scheme = c :: s0 ∧ isAsciiAlpha c = true) ∧
        r.scheme.all isSchemeChar = true ∧ pyLower r.scheme = r.scheme)) ∧
      (∀ c ∈ r.scheme, isUnsafeChar c = false) ∧
      (∀ c ∈ u2, isUnsafeChar c = false) := by
    rcases schemeSplit_cases (removeUnsafe []) (removeUnsafe url) with hcase |
      ⟨c, pre, post, hequ, hA, hall, hcase⟩
    · have hco := hcase.symm.trans hsch
      simp only [Prod.mk.injEq] at hco
      obtain ⟨hs1, hs2⟩ := hco
      refine ⟨Or.inl hs1.symm, ?_, ?_⟩
      · rw [← hs1]
        intro c hc
        cases hc
      · rw [← hs2]
        exact hclean1
    · have hco := hcase.symm.trans hsch
      simp only [Prod.mk.injEq] at hco
      obtain ⟨hs1, hs2⟩ := hco
      obtain ⟨he, ha2, hi⟩ := pyLower_scheme_facts c pre hA hall
      refine ⟨Or.inr ⟨by rw [← hs1]; exact he, by rw [← hs1]; exact ha2,
        by rw [← hs1]; exact hi⟩, ?_, ?_⟩
      · rw [← hs1]
        intro x hx
        simp only [pyLower, List.mem_map] at hx
        obtain ⟨y, hy, rfl⟩ := hx
        exact isUnsafeChar_false_of_schemeChar _
          (isSchemeChar_lowerChar y (List.all_eq_true.mp hall y hy))
      · rw [← hs2]
        intro x hx
        have hx2 : x ∈ removeUnsafe url := by
          rw [hequ]
          exact List.mem_append_right _ (List.mem_cons_of_mem ':' hx)
        exact hclean1 x hx2
  obtain ⟨hscheme_form, hscheme_clean, hu2clean⟩ := hschemes
  have hnetfacts : (∀ c ∈ r.netloc, isNetlocDelim c = false) ∧
      (∀ c ∈ r.netloc, isUnsafeChar c = false) ∧
      (∀ c ∈ url3, isUnsafeChar c = false) ∧
      (r.netloc ≠ [] →
        url3 = [] ∨ ∃ c rest, url3 = c :: rest ∧ isNetlocDelim c = true) := by
    by_cases htk : u2.take 2 = ['/', '/']
    · rw [if_pos htk] at hnl
      simp only [splitnetloc, Prod.mk.injEq] at hnl
      obtain ⟨hn1, hn2⟩ := hnl
      have hdropclean : ∀ c ∈ u2.drop 2, isUnsafeChar c = false := by
        intro c hc
        exact hu2clean c (List.drop_subset 2 u2 hc)
      refine ⟨?_, ?_, ?_, fun _ => ?_⟩
      · intro c hc
        rw [← hn1] at hc
        have hp := mem_takeWhile_pred notNetlocDelim (u2.drop 2) c hc
        cases hd : isNetlocDelim c with
        | true =>
          have hcon : notNetlocDelim c = false := by simp [notNetlocDelim, hd]
          rw [hcon] at hp
          cases hp
        | false => rfl
      · intro c hc
        rw [← hn1] at hc
        exact hdropclean c (mem_of_mem_takeWhile notNetlocDelim (u2.drop 2) c hc)
      · intro c hc
        rw [← hn2] at hc
        exact hdropclean c (mem_of_mem_dropWhile notNetlocDelim (u2.drop 2) c hc)
      · cases hu : url3 with
        | nil => left; rfl
        | cons c rest =>
          right
          exact ⟨c, rest, rfl, dropWhile_head_delim (u2.drop 2) c rest
            (by rw [hn2, hu])⟩
    · rw [if_neg htk] at hnl
      simp only [Prod.mk.injEq] at hnl
      obtain ⟨hn1, hn2⟩ := hnl
      refine ⟨?_, ?_, ?_, fun hne => absurd hn1.symm hne⟩
      · rw [← hn1]; intro c hc; cases hc
      · rw [← hn1]; intro c hc; cases hc
      · rw [← hn2]; exact hu2clean
  obtain ⟨hnd, hnc, hu3clean, hu3shape⟩ := hnetfacts
  have hfr1clean : ∀ c ∈ (splitTail '#' url3).1, isUnsafeChar c = false :=
    fun c hc => hu3clean c (splitTail_fst_mem '#' url3 c hc)
  have hfr1nohash : '#' ∉ (splitTail '#' url3).1 := splitTail_fst_not_mem '#' url3
  refine ⟨hscheme_form, hnd, hbr, ?_, ?_, ?_, hscheme_clean, hnc, ?_, ?_, ?_⟩
  · rw [← hpath]
    intro hc
    exact hfr1nohash (splitTail_fst_mem '?' _ '#' hc)
  · rw [← hpath]
    exact splitTail_fst_not_mem '?' _
  · rw [← hquery]
    intro hc
    exact hfr1nohash (splitTail_snd_mem '?' _ '#' hc)
  · rw [← hpath]
    exact fun c hc => hfr1clean c (splitTail_fst_mem '?' _ c hc)
  · rw [← hquery]
    exact fun c hc => hfr1clean c (splitTail_snd_mem '?' _ c hc)
  · intro hne
    rw [← hpath]
    exact splitTail_path_shape url3 (hu3shape hne)

/-- Structural invariants of the components of a successful `urlparse` with
empty default scheme. -/
structure ParseFacts (p : ParseResult) : Prop where
  scheme_form : p.scheme = [] ∨
    ((∃ c s0, p.scheme = c :: s0 ∧ isAsciiAlpha c = true) ∧
      p.scheme.all isSchemeChar = true ∧ pyLower p.scheme = p.scheme)
  netloc_nondelim : ∀ c ∈ p.netloc, isNetlocDelim c = false
  netloc_brackets :
    ¬ (('[' ∈ p.netloc ∧ ']' ∉ p.netloc) ∨ (']' ∈ p.netloc ∧ '[' ∉ p.netloc))
  path_no_hash : '#' ∉ p.path
  path_no_q : '?' ∉ p.path
  params_no_hash : '#' ∉ p.params
  params_no_q : '?' ∉ p.params
  params_no_slash : '/' ∉ p.params
  query_no_hash : '#' ∉ p.query
  params_scheme : p.params ≠ [] → p.scheme ∈ usesParams
  scheme_clean : ∀ c ∈ p.scheme, isUnsafeChar c = false
  netloc_clean : ∀ c ∈ p.netloc, isUnsafeChar c = false
  path_clean : ∀ c ∈ p.path, isUnsafeChar c = false
  params_clean : ∀ c ∈ p.params, isUnsafeChar c = false
  query_clean : ∀ c ∈ p.query, isUnsafeChar c = false
  path_slash : p.netloc ≠ [] → p.path = [] ∨ ∃ t0, p.path = '/' :: t0

/-- `urlparse` shares `urlsplit`'s components except for the params split. -/
theorem urlparse_of_urlsplit (url d : List Char) (r : SplitResult)
    (h : urlsplit url d = .ok r) :
    ∃ p, urlparse url d = .ok p ∧ p.scheme = r.scheme ∧ p.netloc = r.netloc ∧
      p.query = r.query ∧ p.fragment = r.fragment ∧
      ((¬ (r.scheme ∈ usesParams ∧ ';' ∈ r.path)) →
        p.path = r.path ∧ p.params = []) ∧
      ((r.scheme ∈ usesParams ∧ ';' ∈ r.path) →
        p.path = (splitparams r.path).1 ∧ p.params = (splitparams r.path).2) := by
  simp only [urlparse, h]
  by_cases hc : r.scheme ∈ usesParams ∧ ';' ∈ r.path
  · rw [if_pos hc]
    exact ⟨_, rfl, rfl, rfl, rfl, rfl, fun hn => absurd hc hn,
      fun _ => ⟨rfl, rfl⟩⟩
  · rw [if_neg hc]
    exact ⟨_, rfl, rfl, rfl, rfl, rfl, fun _ => ⟨rfl, rfl⟩,
      fun hcc => absurd hcc hc⟩

/-- A successful `urlparse url ""` yields components satisfying `ParseFacts`. -/
theorem urlparse_ok_facts (url : List Char) (p : ParseResult)
    (h : urlparse url [] = .ok p) : ParseFacts p := by
  cases hsp : urlsplit url [] with
  | error e => simp [urlparse, hsp] at h
  | ok r =>
    obtain hf := urlsplit_ok_facts url r hsp
    obtain ⟨p2, hp2, h1, h2, h3, h4, hno, hyes⟩ := urlparse_of_urlsplit url [] r hsp
    rw [hp2] at h
    simp only [Except.ok.injEq] at h
    subst h
    by_cases hc : r.scheme ∈ usesParams ∧ ';' ∈ r.path
    · obtain ⟨hpa, hpr⟩ := hyes hc
      -- characterize the params split
      have hsplit : (∀ c ∈ (splitparams r.path).1, c ∈ r.path) ∧
          (∀ c ∈ (splitparams r.path).2, c ∈ r.path) ∧
          '/' ∉ (splitparams r.path).2 ∧
          (r.path = [] ∨ (∃ t0, r.path = '/' :: t0) →
            (splitparams r.path).1 = [] ∨
              ∃ t1, (splitparams r.path).1 = '/' :: t1) := by
        cases hsl : splitLast '/' r.path with
        | some pr =>
          obtain ⟨pre, suf⟩ := pr
          obtain ⟨hpe, hps⟩ := splitLast_eq_some '/' r.path pre suf hsl
          cases hsf : splitFirst ';' suf with
          | some ab =>
            obtain ⟨a, b⟩ := ab
            obtain ⟨hae, han⟩ := splitFirst_eq_some ';' suf a b hsf
            have hres : splitparams r.path = (pre ++ '/' :: a, b) := by
              simp [splitparams, hsl, hsf]
            rw [hres]
            refine ⟨?_, ?_, ?_, ?_⟩
            · intro c hc2
              rw [hpe]
              rcases List.mem_append.mp hc2 with hm | hm
              · exact List.mem_append_left _ hm
              · rcases List.mem_cons.mp hm with rfl | hm2
                · exact List.mem_append_right _ (List.mem_cons_self _ _)
                · have hm3 : c ∈ suf := by
                    rw [hae]
                    exact List.mem_append_left _ hm2
                  exact List.mem_append_right _ (List.mem_cons_of_mem _ hm3)
            · intro c hc2
              rw [hpe]
              have hm3 : c ∈ suf := by
                rw [hae]
                exact List.mem_append_right _ (List.mem_cons_of_mem _ hc2)
              exact List.mem_append_right _ (List.mem_cons_of_mem _ hm3)
            · intro hc2
              have hm3 : '/' ∈ suf := by
                rw [hae]
                exact List.mem_append_right _ (List.mem_cons_of_mem _ hc2)
              exact hps hm3
            · intro hsh
              cases hpre : pre with
              | nil => exact Or.inr ⟨a, rfl⟩
              | cons x xs =>
                rcases hsh with hn0 | ⟨t0, ht0⟩
                · rw [hn0, hpre] at hpe; cases hpe
                · rw [ht0, hpre, List.cons_append] at hpe
                  injection hpe with hh _
                  refine Or.inr ⟨xs ++ '/' :: a, ?_⟩
                  subst hh
                  simp
          | none =>
            have hres : splitparams r.path = (r.path, []) := by
              simp [splitparams, hsl, hsf]
            rw [hres]
            refine ⟨fun c hc2 => hc2, ?_, ?_, fun hsh => hsh⟩
            · intro c hc2
              cases hc2
            · intro hc2
              cases hc2
        | none =>
          cases hsf : splitFirst ';' r.path with
          | some ab =>
            obtain ⟨a, b⟩ := ab
            obtain ⟨hae, han⟩ := splitFirst_eq_some ';' r.path a b hsf
            have hres : splitparams r.path = (a, b) := by
              simp [splitparams, hsl, hsf]
            rw [hres]
            have hslmem : '/' ∉ r.path := (splitLast_none_iff '/' r.path).mp hsl
            refine ⟨?_, ?_, ?_, ?_⟩
            · intro c hc2
              rw [hae]
              exact List.mem_append_left _ hc2
            · intro c hc2
              rw [hae]
              exact List.mem_append_right _ (List.mem_cons_of_mem _ hc2)
            · intro hc2
              have hm3 : '/' ∈ r.path := by
                rw [hae]
                exact List.mem_append_right _ (List.mem_cons_of_mem _ hc2)
              exact hslmem hm3
            · intro hsh
              rcases hsh with hn0 | ⟨t0, ht0⟩
              · rw [hn0] at hae
                cases a with
                | nil => left; rfl
                | cons x xs => rw [List.cons_append] at hae; cases hae
              · exact absurd (by rw [ht0]; exact List.mem_cons_self '/' t0) hslmem
          | none =>
            have hres : splitparams r.path = (r.path, []) := by
              simp [splitparams, hsl, hsf]
            rw [hres]
            refine ⟨fun c hc2 => hc2, ?_, ?_, fun hsh => hsh⟩
            · intro c hc2
              cases hc2
            · intro hc2
              cases hc2
      obtain ⟨hm1, hm2, hnsl, hsh⟩ := hsplit
      refine ⟨by rw [h1]; exact hf.scheme_form,
        by rw [h2]; exact hf.netloc_nondelim,
        by rw [h2]; exact hf.netloc_brackets,
        by rw [hpa]; intro hx; exact hf.path_no_hash (hm1 _ hx),
        by rw [hpa]; intro hx; exact hf.path_no_q (hm1 _ hx),
        by rw [hpr]; intro hx; exact hf.path_no_hash (hm2 _ hx),
        by rw [hpr]; intro hx; exact hf.path_no_q (hm2 _ hx),
        by rw [hpr]; exact hnsl,
        by rw [h3]; exact hf.query_no_hash,
        fun _ => by rw [h1]; exact hc.1,
        by rw [h1]; exact hf.scheme_clean,
        by rw [h2]; exact hf.netloc_clean,
        by rw [hpa]; exact fun c hc2 => hf.path_clean c (hm1 c hc2),
        by rw [hpr]; exact fun c hc2 => hf.path_clean c (hm2 c hc2),
        by rw [h3]; exact hf.query_clean, ?_⟩
      intro hne
      rw [hpa]
      exact hsh (hf.path_slash (by rw [h2] at hne; exact hne))
    · obtain ⟨hpa, hpr⟩ := hno hc
      exact ⟨by rw [h1]; exact hf.scheme_form,
        by rw [h2]; exact hf.netloc_nondelim,
        by rw [h2]; exact hf.netloc_brackets,
        by rw [hpa]; exact hf.path_no_hash,
        by rw [hpa]; exact hf.path_no_q,
        (by rw [hpr]; intro hx; cases hx),
        (by rw [hpr]; intro hx; cases hx),
        (by rw [hpr]; intro hx; cases hx),
        by rw [h3]; exact hf.query_no_hash,
        fun hne => absurd hpr hne,
        by rw [h1]; exact hf.scheme_clean,
        by rw [h2]; exact hf.netloc_clean,
        by rw [hpa]; exact hf.path_clean,
        (by rw [hpr]; intro c hc2; cases hc2),
        by rw [h3]; exact hf.query_clean,
        fun hne => by rw [hpa]; exact hf.path_slash (by rw [h2] at hne; exact hne)⟩

/-- The slash `urlunsplit` prepends to a non-`/`-headed path when a netloc is
present (the path part of the canonical concatenation). -/
def optSlash (u : List Char) : List Char :=
  if u ≠ [] ∧ u.take 1 ≠ ['/'] then '/' :: u else u

theorem optSlash_shape (u : List Char) :
    optSlash u = [] ∨ ∃ t0, optSlash u = '/' :: t0 := by
  by_cases hcnd : u ≠ [] ∧ u.take 1 ≠ ['/']
  · right
    refine ⟨u, ?_⟩
    simp only [optSlash]
    rw [if_pos hcnd]
  · simp only [optSlash]
    rw [if_neg hcnd]
    push_neg at hcnd
    cases hu0 : u with
    | nil => left; rfl
    | cons c cs =>
      have hne : u ≠ [] := by rw [hu0]; intro hx; cases hx
      have htk := hcnd hne
      rw [hu0] at htk
      have hc2 : c = '/' := by simpa [List.take] using htk
      right
      exact ⟨cs, by rw [hc2]⟩

theorem mem_optSlash (u : List Char) (c : Char) (h : c ∈ optSlash u) :
    c = '/' ∨ c ∈ u := by
  simp only [optSlash] at h
  by_cases hcnd : u ≠ [] ∧ u.take 1 ≠ ['/']
  · rw [if_pos hcnd] at h
    rcases List.mem_cons.mp h with rfl | hm
    · exact Or.inl rfl
    · exact Or.inr hm
  · rw [if_neg hcnd] at h
    exact Or.inr h

/-- Two `urlunsplit`s with the same nonempty netloc and paths agreeing after
the optional slash produce the same string. -/
theorem urlunsplit_eq_of_optSlash (s n u1 u2 q : List Char) (hn : n ≠ [])
    (h : optSlash u1 = optSlash u2) :
    urlunsplit s n u1 q [] = urlunsplit s n u2 q [] := by
  rw [urlunsplit_shape s n u1 q hn, urlunsplit_shape s n u2 q hn]
  have e1 : (if u1 ≠ [] ∧ u1.take 1 ≠ ['/'] then '/' :: u1 else u1) =
      optSlash u1 := rfl
  have e2 : (if u2 ≠ [] ∧ u2.take 1 ≠ ['/'] then '/' :: u2 else u2) =
      optSlash u2 := rfl
  rw [e1, e2, h]

/-- `urlunparse` through the params recombination. -/
theorem urlunparse_eq (s n pa pr q : List Char) :
    urlunparse ⟨s, n, pa, pr, q, []⟩ =
      urlunsplit s n (if pr ≠ [] then pa ++ ';' :: pr else pa) q [] := rfl

/-- `normalize_url` on a parseable URL: the rebuilt string, componentwise. -/
theorem normalize_url_ok (url : List Char) (p : ParseResult)
    (h : urlparse url [] = .ok p) :
    normalize_url url = .ok (urlunparse ⟨pyLower p.scheme, pyLower p.netloc,
      (if p.path = ['/'] then p.path else rstripSlash p.path),
      p.params, p.query, []⟩) := by
  simp only [normalize_url, h]

/-- Re-splitting the string `normalize_url` builds (for a URL with nonempty
netloc) recovers the lower-cased scheme and netloc, the recombined path after
the optional slash, and the query. -/
theorem normalize_reparse (p : ParseResult) (path' u' : List Char)
    (hf : ParseFacts p) (hn : p.netloc ≠ [])
    (hpath' : path' = if p.path = ['/'] then p.path else rstripSlash p.path)
    (hu' : u' = if p.params ≠ [] then path' ++ ';' :: p.params else path') :
    urlsplit (urlunsplit (pyLower p.scheme) (pyLower p.netloc) u' p.query []) [] =
      .ok ⟨pyLower p.scheme, pyLower p.netloc, optSlash u', p.query, []⟩ := by
  have hpath'mem : ∀ c ∈ path', c ∈ p.path := by
    intro c hc
    rw [hpath'] at hc
    by_cases hpp : p.path = ['/']
    · rw [if_pos hpp] at hc
      exact hc
    · rw [if_neg hpp] at hc
      exact mem_of_mem_rstripSlash p.path c hc
  have humem : ∀ c ∈ u', c ∈ p.path ∨ c = ';' ∨ c ∈ p.params := by
    intro c hc
    rw [hu'] at hc
    by_cases hpr : p.params ≠ []
    · rw [if_pos hpr] at hc
      rcases List.mem_append.mp hc with hm | hm
      · exact Or.inl (hpath'mem c hm)
      · rcases List.mem_cons.mp hm with rfl | hm2
        · exact Or.inr (Or.inl rfl)
        · exact Or.inr (Or.inr hm2)
    · rw [if_neg hpr] at hc
      exact Or.inl (hpath'mem c hc)
  have htmem : ∀ c ∈ optSlash u', c = '/' ∨ c ∈ p.path ∨ c = ';' ∨ c ∈ p.params := by
    intro c hc
    rcases mem_optSlash u' c hc with h0 | h0
    · exact Or.inl h0
    · exact Or.inr (humem c h0)
  have hn' : pyLower p.netloc ≠ [] := fun hh => hn ((pyLower_eq_nil p.netloc).mp hh)
  rw [urlunsplit_shape (pyLower p.scheme) (pyLower p.netloc) u' p.query hn']
  have hopt : (if u' ≠ [] ∧ u'.take 1 ≠ ['/'] then '/' :: u' else u') =
      optSlash u' := rfl
  rw [hopt]
  have hslow : pyLower p.scheme = p.scheme := by
    rcases hf.scheme_form with h0 | ⟨-, -, h0⟩
    · rw [h0]; rfl
    · exact h0
  have hs : pyLower p.scheme = [] ∨
      ((∃ c s0, pyLower p.scheme = c :: s0 ∧ isAsciiAlpha c = true) ∧
        (pyLower p.scheme).all isSchemeChar = true ∧
        pyLower (pyLower p.scheme) = pyLower p.scheme) := by
    rcases hf.scheme_form with h0 | ⟨he, ha, hi⟩
    · left; rw [h0]; rfl
    · right
      rw [hslow]
      exact ⟨he, ha, hi⟩
  have hncl := pyLower_nondelim p.netloc hf.netloc_nondelim
  have hbl : ('[' ∈ pyLower p.netloc) ↔ '[' ∈ p.netloc :=
    mem_pyLower_special p.netloc '[' (by decide) (by decide)
  have hbr2 : (']' ∈ pyLower p.netloc) ↔ ']' ∈ p.netloc :=
    mem_pyLower_special p.netloc ']' (by decide) (by decide)
  have hbr : ¬ (('[' ∈ pyLower p.netloc ∧ ']' ∉ pyLower p.netloc) ∨
      (']' ∈ pyLower p.netloc ∧ '[' ∉ pyLower p.netloc)) := by
    intro hcon
    apply hf.netloc_brackets
    rcases hcon with ⟨h1, h2⟩ | ⟨h1, h2⟩
    · exact Or.inl ⟨hbl.mp h1, fun hm => h2 (hbr2.mpr hm)⟩
    · exact Or.inr ⟨hbr2.mp h1, fun hm => h2 (hbl.mpr hm)⟩
  have ht := optSlash_shape u'
  have htc : '#' ∉ optSlash u' ∧ '?' ∉ optSlash u' := by
    constructor <;> intro hx <;> rcases htmem _ hx with h0 | h0 | h0 | h0
    · exact absurd h0 (by decide)
    · exact hf.path_no_hash h0
    · exact absurd h0 (by decide)
    · exact hf.params_no_hash h0
    · exact absurd h0 (by decide)
    · exact hf.path_no_q h0
    · exact absurd h0 (by decide)
    · exact hf.params_no_q h0
  have hclean : ∀ c ∈ (if pyLower p.scheme ≠ [] then pyLower p.scheme ++ [':']
      else []) ++ '/' :: '/' :: (pyLower p.netloc ++ optSlash u') ++
      (if p.query ≠ [] then '?' :: p.query else []),
      isUnsafeChar c = false := by
    intro c hc
    rcases List.mem_append.mp hc with hc1 | hcq
    · rcases List.mem_append.mp hc1 with hcs | hcm
      · by_cases hs0 : pyLower p.scheme ≠ []
        · rw [if_pos hs0] at hcs
          rcases List.mem_append.mp hcs with hm | hm
          · exact pyLower_clean p.scheme hf.scheme_clean c hm
          · rcases List.mem_cons.mp hm with rfl | hm2
            · decide
            · cases hm2
        · rw [if_neg hs0] at hcs
          cases hcs
      · rcases List.mem_cons.mp hcm with rfl | hm
        · decide
        · rcases List.mem_cons.mp hm with rfl | hm2
          · decide
          · rcases List.mem_append.mp hm2 with hm3 | hm3
            · exact pyLower_clean p.netloc hf.netloc_clean c hm3
            · rcases htmem c hm3 with h0 | h0 | h0 | h0
              · rw [h0]; decide
              · exact hf.path_clean c h0
              · rw [h0]; decide
              · exact hf.params_clean c h0
    · by_cases hq0 : p.query ≠ []
      · rw [if_pos hq0] at hcq
        rcases List.mem_cons.mp hcq with rfl | hm
        · decide
        · exact hf.query_clean c hm
      · rw [if_neg hq0] at hcq
        cases hcq
  exact urlsplit_canonical (pyLower p.scheme) (pyLower p.netloc) (optSlash u')
    p.query hs hncl hbr ht htc hf.query_no_hash hclean

/-- A URL that parses with an upper-case character in its netloc normalizes to
a URL whose netloc no longer equals the original one, so the scope filter
rejects it. -/
theorem normalize_rejected (u dom : List Char) (prefixes : List (List Char))
    (p : ParseResult) (hparse : urlparse u [] = .ok p) (hdom : p.netloc = dom)
    (c : Char) (hc : c ∈ dom) (hup : 65 ≤ c.toNat ∧ c.toNat ≤ 90) :
    ∃ nu, normalize_url u = .ok nu ∧ shouldCrawlUrl nu dom prefixes = .ok false := by
  obtain hf := urlparse_ok_facts u p hparse
  have hn : p.netloc ≠ [] := by
    rw [hdom]
    intro hx
    rw [hx] at hc
    cases hc
  refine ⟨_, normalize_url_ok u p hparse, ?_⟩
  rw [urlunparse_eq]
  have hre := normalize_reparse p _ _ hf hn rfl rfl
  obtain ⟨p2, hp2, hsch2, hnet2, hq2, hfr2, hno2, hyes2⟩ :=
    urlparse_of_urlsplit _ [] _ hre
  simp only [shouldCrawlUrl, hp2]
  have hnet3 : p2.netloc = pyLower dom := by rw [hnet2, ← hdom]
  have hcond : p2.netloc ≠ dom := by
    rw [hnet3]
    exact pyLower_ne_of_mem_upper dom c hc hup
  rw [if_pos hcond]

theorem mem_optSlash_of_mem (u : List Char) (c : Char) (h : c ∈ u) :
    c ∈ optSlash u := by
  simp only [optSlash]
  by_cases hcnd : u ≠ [] ∧ u.take 1 ≠ ['/']
  · rw [if_pos hcnd]
    exact List.mem_cons_of_mem '/' h
  · rw [if_neg hcnd]
    exact h

theorem pathKeep_subset (pa : List Char) (c : Char)
    (h : c ∈ (if pa = ['/'] then pa else rstripSlash pa)) : c ∈ pa := by
  by_cases hpp : pa = ['/']
  · rw [if_pos hpp] at h
    exact h
  · rw [if_neg hpp] at h
    exact mem_of_mem_rstripSlash pa c h

theorem rstripSlash_head_of (s : List Char) (c : Char) (t' : List Char)
    (hs : s = c :: t') : rstripSlash s = [] ∨ ∃ t2, rstripSlash s = c :: t2 := by
  cases hr : rstripSlash s with
  | nil => left; rfl
  | cons x xs =>
    obtain ⟨t3, h3⟩ := rstripSlash_head s x xs hr
    rw [hs] at h3
    injection h3 with h4 h5
    subst h4
    exact Or.inr ⟨xs, rfl⟩

/-- Stripping the optional slash back off: for a path that is already in
normalized form (`/`, empty, or slash-headed with no trailing slash), the
`rstrip`-or-keep step applied to the reassembled path recovers it. -/
theorem pathKeep_optSlash_eq (w : List Char)
    (hw : w = ['/'] ∨ (rstripSlash w = w ∧ (w = [] ∨ ∃ x, w = '/' :: x))) :
    (if optSlash w = ['/'] then optSlash w else rstripSlash (optSlash w)) = w := by
  rcases hw with rfl | ⟨hfix, rfl | ⟨x, rfl⟩⟩
  · rw [show optSlash ['/'] = ['/'] from rfl, if_pos rfl]
  · rw [show optSlash [] = ([] : List Char) from rfl]
    rw [if_neg (by decide)]
    rfl
  · rw [show optSlash ('/' :: x) = '/' :: x from rfl]
    by_cases hx : '/' :: x = ['/']
    · rw [if_pos hx]
    · rw [if_neg hx]
      exact hfix

/-- The params re-split: `_splitparams` applied to the path part rebuilt by
`normalize_url` recovers the params unchanged, and recombining gives back the
same path part. -/
theorem resplit_params (w params : List Char)
    (hw : w = ['/'] ∨ (rstripSlash w = w ∧ (w = [] ∨ ∃ x, w = '/' :: x)))
    (hsemi : ';' ∉ w) (hslash : '/' ∉ params) :
    (splitparams (optSlash (w ++ ';' :: params))).2 = params ∧
    optSlash ((if (splitparams (optSlash (w ++ ';' :: params))).1 = ['/']
        then (splitparams (optSlash (w ++ ';' :: params))).1
        else rstripSlash (splitparams (optSlash (w ++ ';' :: params))).1) ++
      ';' :: params) = optSlash (w ++ ';' :: params) := by
  have hnot : '/' ∉ ';' :: params := by
    intro hx
    rcases List.mem_cons.mp hx with h2 | h2
    · exact absurd h2 (by decide)
    · exact hslash h2
  have hkey : splitparams ('/' :: ';' :: params) = (['/'], params) := by
    have h1 : splitLast '/' ('/' :: ';' :: params) = some ([], ';' :: params) := by
      have h0 := splitLast_append_sep '/' [] (';' :: params) hnot
      simpa using h0
    have h2 : splitFirst ';' (';' :: params) = some ([], params) := by
      simp [splitFirst]
    simp [splitparams, h1, h2]
  rcases hw with rfl | ⟨hfix, rfl | ⟨x, rfl⟩⟩
  · have ht : optSlash (['/'] ++ ';' :: params) = '/' :: ';' :: params := rfl
    rw [ht, hkey]
    refine ⟨rfl, ?_⟩
    rw [if_pos (show ((['/'] : List Char), params).1 = ['/'] from rfl)]
    exact ht
  · have ht : optSlash ([] ++ ';' :: params) = '/' :: ';' :: params := rfl
    rw [ht, hkey]
    refine ⟨rfl, ?_⟩
    rw [if_pos (show ((['/'] : List Char), params).1 = ['/'] from rfl)]
    exact (rfl : optSlash (['/'] ++ ';' :: params) = '/' :: ';' :: params)
  · have ht : optSlash (('/' :: x) ++ ';' :: params) = ('/' :: x) ++ ';' :: params :=
      rfl
    rw [ht]
    cases hsl : splitLast '/' ('/' :: x) with
    | none =>
      exact absurd (List.mem_cons_self '/' x) ((splitLast_none_iff '/' _).mp hsl)
    | some pr =>
      obtain ⟨π, σ⟩ := pr
      obtain ⟨hpe, hps⟩ := splitLast_eq_some '/' ('/' :: x) π σ hsl
      have hσsub : ∀ c ∈ σ, c ∈ '/' :: x := by
        intro c hc
        rw [hpe]
        exact List.mem_append_right _ (List.mem_cons_of_mem '/' hc)
      have hσsemi : ';' ∉ σ := fun hx => hsemi (hσsub ';' hx)
      have hσslash : '/' ∉ σ ++ ';' :: params := by
        intro hx
        rcases List.mem_append.mp hx with h2 | h2
        · exact hps h2
        · exact hnot h2
      have hte : ('/' :: x) ++ ';' :: params = π ++ '/' :: (σ ++ ';' :: params) := by
        rw [hpe, List.append_assoc, List.cons_append]
      have h1 : splitLast '/' (('/' :: x) ++ ';' :: params) =
          some (π, σ ++ ';' :: params) := by
        rw [hte]
        exact splitLast_append_sep '/' π (σ ++ ';' :: params) hσslash
      have h2 : splitFirst ';' (σ ++ ';' :: params) = some (σ, params) :=
        splitFirst_append_sep ';' σ params hσsemi
      have hsp2 : splitparams (('/' :: x) ++ ';' :: params) = ('/' :: x, params) := by
        have h3 : splitparams (('/' :: x) ++ ';' :: params) =
            (π ++ '/' :: σ, params) := by
          have h1' := h1
          rw [List.cons_append] at h1'
          rw [List.cons_append]
          simp only [splitparams, h1', h2]
        rw [h3, ← hpe]
      rw [hsp2]
      refine ⟨rfl, ?_⟩
      have hwne : ('/' :: x, params).1 ≠ ['/'] := by
        intro hh
        have hh' : '/' :: x = ['/'] := hh
        rw [hh'] at hfix
        exact absurd hfix (by decide)
      rw [if_neg hwne]
      have hfix2 : rstripSlash ('/' :: x, params).1 = '/' :: x := hfix
      rw [hfix2]
      exact ht

/-- The full idempotence core: `normalize_url` maps its own output (for a URL
with nonempty netloc and no `;` in the parsed path) to itself. -/
theorem normalize_idem_core (p : ParseResult) (path' u' : List Char)
    (hf : ParseFacts p) (hnet : p.netloc ≠ []) (hsemi : ';' ∉ p.path)
    (hpath' : path' = if p.path = ['/'] then p.path else rstripSlash p.path)
    (hu' : u' = if p.params ≠ [] then path' ++ ';' :: p.params else path') :
    normalize_url (urlunsplit (pyLower p.scheme) (pyLower p.netloc) u' p.query []) =
      .ok (urlunsplit (pyLower p.scheme) (pyLower p.netloc) u' p.query []) := by
  have hre := normalize_reparse p path' u' hf hnet hpath' hu'
  obtain ⟨p2, hp2, hsch2, hnet2, hq2, hfr2, hno2, hyes2⟩ :=
    urlparse_of_urlsplit _ [] _ hre
  rw [normalize_url_ok _ p2 hp2, urlunparse_eq]
  have hn' : pyLower p.netloc ≠ [] :=
    fun hh => hnet ((pyLower_eq_nil p.netloc).mp hh)
  have hs2 : pyLower p2.scheme = pyLower p.scheme := by
    rw [hsch2]
    exact pyLower_idem p.scheme
  have hn2 : pyLower p2.netloc = pyLower p.netloc := by
    rw [hnet2]
    exact pyLower_idem p.netloc
  have hq2' : p2.query = p.query := hq2
  have hslow : pyLower p.scheme = p.scheme := by
    rcases hf.scheme_form with h0 | ⟨-, -, h0⟩
    · rw [h0]; rfl
    · exact h0
  have hpsub : ∀ c ∈ path', c ∈ p.path := by
    intro c hc
    rw [hpath'] at hc
    exact pathKeep_subset p.path c hc
  have hsemiP : ';' ∉ path' := fun hx => hsemi (hpsub ';' hx)
  have hwp : path' = ['/'] ∨
      (rstripSlash path' = path' ∧ (path' = [] ∨ ∃ x, path' = '/' :: x)) := by
    by_cases hpp : p.path = ['/']
    · left; rw [hpath', if_pos hpp, hpp]
    · right
      rw [hpath', if_neg hpp]
      refine ⟨rstripSlash_idem p.path, ?_⟩
      rcases hf.path_slash hnet with h0 | ⟨t0, h0⟩
      · left; rw [h0]; rfl
      · exact rstripSlash_head_of p.path '/' t0 h0
  by_cases hP : p.params = []
  · have hu'2 : u' = path' := by
      rw [hu', if_neg (fun hh => hh hP)]
    have hcondF : ¬ ((⟨pyLower p.scheme, pyLower p.netloc, optSlash u',
        p.query, []⟩ : SplitResult).scheme ∈ usesParams ∧ ';' ∈
        (⟨pyLower p.scheme, pyLower p.netloc, optSlash u',
        p.query, []⟩ : SplitResult).path) := by
      rintro ⟨-, hsm⟩
      rcases mem_optSlash u' ';' hsm with h0 | h0
      · exact absurd h0 (by decide)
      · rw [hu'2] at h0
        exact hsemiP h0
    obtain ⟨hpa2, hpr2⟩ := hno2 hcondF
    have hpa3 : p2.path = optSlash u' := hpa2
    have hpr3 : p2.params = [] := hpr2
    rw [hs2, hn2, hq2', hpr3]
    rw [if_neg (fun hh : ([] : List Char) ≠ [] => hh rfl)]
    refine congrArg Except.ok ?_
    apply urlunsplit_eq_of_optSlash _ _ _ _ _ hn'
    rw [hpa3, hu'2]
    rw [pathKeep_optSlash_eq path' hwp]
  · have hu'2 : u' = path' ++ ';' :: p.params := by
      rw [hu', if_pos hP]
    have hcondT : ((⟨pyLower p.scheme, pyLower p.netloc, optSlash u',
        p.query, []⟩ : SplitResult).scheme ∈ usesParams ∧ ';' ∈
        (⟨pyLower p.scheme, pyLower p.netloc, optSlash u',
        p.query, []⟩ : SplitResult).path) := by
      constructor
      · show pyLower p.scheme ∈ usesParams
        rw [hslow]
        exact hf.params_scheme hP
      · show ';' ∈ optSlash u'
        apply mem_optSlash_of_mem
        rw [hu'2]
        exact List.mem_append_right _ (List.mem_cons_self ';' p.params)
    obtain ⟨hpa2, hpr2⟩ := hyes2 hcondT
    have hpa3 : p2.path = (splitparams (optSlash u')).1 := hpa2
    have hpr3 : p2.params = (splitparams (optSlash u')).2 := hpr2
    obtain ⟨hps2, hopt2⟩ :=
      resplit_params path' p.params hwp hsemiP hf.params_no_slash
    rw [hs2, hn2, hq2']
    refine congrArg Except.ok ?_
    apply urlunsplit_eq_of_optSlash _ _ _ _ _ hn'
    rw [hpa3, hpr3, hu'2]
    rw [hps2, if_pos hP]
    exact hopt2

/-! ## The dead-end run: every popped URL is rejected by the scope filter -/

/-- An iteration whose URL normalizes to a filter-rejected URL changes
neither queue, scraped nor fetches. -/
theorem crawlIter_reject (env : CrawlEnv) (dom : List Char)
    (pf : List (List Char)) (url nu : List Char) (st : CrawlState)
    (h1 : normalize_url url = .ok nu)
    (h2 : shouldCrawlUrl nu dom pf = .ok false) :
    ∃ st', crawlIter env dom pf url st = .ok st' ∧ st'.queue = st.queue ∧
      st'.scraped = st.scraped ∧ st'.fetches = st.fetches := by
  by_cases hv : nu ∈ st.visited
  · exact ⟨{st with pops := st.pops + 1},
      crawlIter_visited_skip env dom pf url st nu h1 hv, rfl, rfl, rfl⟩
  · refine ⟨{st with pops := st.pops + 1, visited := nu :: st.visited}, ?_,
      rfl, rfl, rfl⟩
    simp [crawlIter, h1, hv, h2]

/-- If every queued URL normalizes to a filter-rejected URL, the loop
completes with scraped and fetches unchanged. -/
theorem crawlLoop_reject_all (env : CrawlEnv) (dom : List Char)
    (pf : List (List Char)) (mp : Int) :
    ∀ fuel st,
      (∀ u ∈ st.queue, ∃ nu, normalize_url u = .ok nu ∧
        shouldCrawlUrl nu dom pf = .ok false) →
      ∃ st', crawlLoop env dom pf mp fuel st = .ok st' ∧
        st'.scraped = st.scraped ∧ st'.fetches = st.fetches := by
  intro fuel
  induction fuel with
  | zero =>
    intro st hrej
    exact ⟨st, rfl, rfl, rfl⟩
  | succ n ih =>
    intro st hrej
    cases hque : st.queue with
    | nil =>
      refine ⟨st, ?_, rfl, rfl⟩
      simp [crawlLoop, hque]
    | cons url rest =>
      by_cases hc : mp = -1 ∨ (st.scraped.length : Int) < mp
      · obtain ⟨nu, hn1, hn2⟩ :=
          hrej url (by rw [hque]; exact List.mem_cons_self url rest)
        obtain ⟨st1, hi, hq1, hs1, hf1⟩ :=
          crawlIter_reject env dom pf url nu {st with queue := rest} hn1 hn2
        have hrej1 : ∀ u ∈ st1.queue, ∃ nu, normalize_url u = .ok nu ∧
            shouldCrawlUrl nu dom pf = .ok false := by
          intro u hu
          rw [hq1] at hu
          exact hrej u (by rw [hque]; exact List.mem_cons_of_mem url hu)
        obtain ⟨st', hloop, h1, h2⟩ := ih st1 hrej1
        refine ⟨st', ?_, by rw [h1, hs1], by rw [h2, hf1]⟩
        simp only [crawlLoop, hque, if_pos hc, hi, hloop]
      · refine ⟨st, ?_, rfl, rfl⟩
        simp [crawlLoop, hque, if_neg hc]

theorem except_bind_ok {α β : Type} (a : α) (f : α → Except Unit β) :
    ((Except.ok a : Except Unit α) >>= f) = f a := rfl

theorem except_bind_error {α β : Type} (e : Unit) (f : α → Except Unit β) :
    ((Except.error e : Except Unit α) >>= f) = Except.error e := rfl

/-- The seeds accumulated by `crawl_site`'s additional-path loop all parse
with netloc equal to the allowed domain. -/
theorem foldlM_seeds (startUrl dom : List Char) :
    ∀ (paths : List (List Char)) (acc seeds : List (List Char)),
      (∀ u ∈ acc, ∃ p, urlparse u [] = .ok p ∧ p.netloc = dom) →
      (paths.foldlM
        (fun (acc2 : List (List Char)) q => do
          let fu ← urljoin startUrl q
          let pf ← urlparse fu []
          pure (if pf.netloc = dom then acc2 ++ [fu] else acc2)) acc) =
        .ok seeds →
      ∀ u ∈ seeds, ∃ p, urlparse u [] = .ok p ∧ p.netloc = dom := by
  intro paths
  induction paths with
  | nil =>
    intro acc seeds hacc h
    simp only [List.foldlM_nil] at h
    have h2 : (Except.ok acc : Except Unit (List (List Char))) = .ok seeds := h
    injection h2 with h3
    subst h3
    exact hacc
  | cons q qs ih =>
    intro acc seeds hacc h
    rw [List.foldlM_cons] at h
    cases hj : urljoin startUrl q with
    | error e =>
      rw [hj, except_bind_error, except_bind_error] at h
      simp at h
    | ok fu =>
      rw [hj, except_bind_ok] at h
      cases hp : urlparse fu [] with
      | error e =>
        rw [hp, except_bind_error, except_bind_error] at h
        simp at h
      | ok pf =>
        rw [hp, except_bind_ok] at h
        have hinv : ∀ u ∈ (if pf.netloc = dom then acc ++ [fu] else acc),
            ∃ p, urlparse u [] = .ok p ∧ p.netloc = dom := by
          intro u hu
          by_cases hd : pf.netloc = dom
          · rw [if_pos hd] at hu
            rcases List.mem_append.mp hu with hm | hm
            · exact hacc u hm
            · rcases List.mem_cons.mp hm with rfl | hm2
              · exact ⟨pf, hp, hd⟩
              · cases hm2
          · rw [if_neg hd] at hu
            exact hacc u hu
        exact ih _ seeds hinv h

/-- Every seed queued by `crawlSetup` parses with netloc equal to the
allowed domain (the start URL by construction, the additional-path joins by
the guard at crawler.py line 141). -/
theorem crawlSetup_seeds (startUrl : List Char) (ap : List (List Char))
    (dom : List Char) (pfx seeds : List (List Char))
    (h : crawlSetup startUrl ap = .ok (dom, pfx, seeds)) :
    ∀ u ∈ seeds, ∃ p, urlparse u [] = .ok p ∧ p.netloc = dom := by
  cases hps : urlparse startUrl [] with
  | error e => simp [crawlSetup, hps] at h
  | ok pstart =>
    simp only [crawlSetup, hps] at h
    cases hfo : ap.foldlM
        (fun (acc : List (List Char)) p => do
          let fu ← urljoin startUrl p
          let pf ← urlparse fu []
          pure (if pf.netloc = pstart.netloc then acc ++ [fu] else acc))
        [startUrl] with
    | error e =>
      rw [hfo] at h
      simp [Except.map] at h
    | ok sds =>
      rw [hfo] at h
      simp only [Except.map, Except.ok.injEq, Prod.mk.injEq] at h
      obtain ⟨hd, hpf2, hsd⟩ := h
      subst hd
      subst hsd
      have hinv : ∀ u ∈ [startUrl],
          ∃ p, urlparse u [] = .ok p ∧ p.netloc = pstart.netloc := by
        intro u hu
        rcases List.mem_cons.mp hu with rfl | hm
        · exact ⟨pstart, hps, rfl⟩
        · cases hm
      exact foldlM_seeds startUrl pstart.netloc ap [startUrl] sds hinv hfo

/-- **C7** counterexample: `normalize_url` is not a total error-free function
(it raises `ValueError` on the malformed input `"http://["`, from the
bracket check in `urlsplit`), and it is not idempotent:
`normalize_url "http://h/a/;b/" = "http://h/a/;b"` (the `;b` lies in the
last path segment's params position only after the trailing slash is
stripped), while a second application gives `"http://h/a;b"`. -/
theorem c7_counterexample :
    normalize_url "http://[".toList = .error () ∧
    normalize_url "http://h/a/;b/".toList = .ok "http://h/a/;b".toList ∧
    normalize_url "http://h/a/;b".toList = .ok "http://h/a;b".toList ∧
    "http://h/a/;b".toList ≠ "http://h/a;b".toList :=
  ⟨rfl, rfl, rfl, by decide⟩

/-- **C7** (amended): on every URL that `urlparse` accepts with a nonempty
netloc and no `;` in the parsed path, `normalize_url` succeeds and its output
is a fixed point: `normalize_url u = .ok v` and `normalize_url v = .ok v`. -/
theorem c7_normalize_idempotent_amended (u : List Char) (p : ParseResult)
    (h : urlparse u [] = .ok p) (hnet : p.netloc ≠ []) (hsemi : ';' ∉ p.path) :
    ∃ v, normalize_url u = .ok v ∧ normalize_url v = .ok v := by
  obtain hf := urlparse_ok_facts u p h
  refine ⟨_, normalize_url_ok u p h, ?_⟩
  rw [urlunparse_eq]
  exact normalize_idem_core p _ _ hf hnet hsemi rfl rfl

theorem c7_normalize_idempotent_amended_witness :
    (urlparse "http://h/a/".toList [] =
      .ok ⟨"http".toList, "h".toList, "/a/".toList, [], [], []⟩ ∧
      ("h".toList : List Char) ≠ [] ∧ ';' ∉ "/a/".toList) ∧
    ∃ v, normalize_url "http://h/a/".toList = .ok v ∧ normalize_url v = .ok v :=
  ⟨⟨rfl, by decide, by decide⟩,
    c7_normalize_idempotent_amended "http://h/a/".toList
      ⟨"http".toList, "h".toList, "/a/".toList, [], [], []⟩
      rfl (by decide) (by decide)⟩

/-- **C10** (implicit case-sensitivity dead end): whenever `crawl_site`'s
setup succeeds and the allowed domain (taken verbatim from the start URL's
netloc) contains an upper-case ASCII letter, every popped URL — the seeds
included — is rejected by the scope filter, because `normalize_url`
lower-cases the host while `_should_crawl_url` compares netlocs by exact
equality; so the run attempts no fetch and `crawl_site` returns the empty
list, for every environment, page cap and fuel. -/
theorem c10_uppercase_host_dead_end (env : CrawlEnv) (startUrl : List Char)
    (additionalPaths : List (List Char)) (maxPages : Int) (fuel : Nat)
    (dom : List Char) (pfx seeds : List (List Char))
    (hsetup : crawlSetup startUrl additionalPaths = .ok (dom, pfx, seeds))
    (c : Char) (hc : c ∈ dom) (hup : 65 ≤ c.toNat ∧ c.toNat ≤ 90) :
    ∃ st', crawlSiteState env startUrl additionalPaths maxPages fuel = .ok st' ∧
      st'.fetches = [] ∧
      crawl_site env startUrl additionalPaths maxPages fuel = .ok [] := by
  have hrej : ∀ u ∈ seeds, ∃ nu, normalize_url u = .ok nu ∧
      shouldCrawlUrl nu dom pfx = .ok false := by
    intro u hu
    obtain ⟨p, hp, hpd⟩ :=
      crawlSetup_seeds startUrl additionalPaths dom pfx seeds hsetup u hu
    exact normalize_rejected u dom pfx p hp hpd c hc hup
  cases hic : env.initialConnect with
  | false =>
    refine ⟨initState [], ?_, rfl, ?_⟩
    · simp [crawlSiteState, hsetup, hic]
    · simp [crawl_site, crawlSiteState, hsetup, hic]
      rfl
  | true =>
    obtain ⟨st', hloop, hs, hf⟩ := crawlLoop_reject_all env dom pfx maxPages fuel
      (initState seeds) (fun u hu => hrej u hu)
    have hcs : crawlSiteState env startUrl additionalPaths maxPages fuel =
        .ok st' := by
      simp [crawlSiteState, hsetup, hic, hloop]
    refine ⟨st', hcs, ?_, ?_⟩
    · rw [hf]
      rfl
    · simp only [crawl_site, hcs, Except.map]
      rw [hs]
      rfl

theorem c10_uppercase_host_dead_end_witness :
    (crawlSetup "http://H/x".toList [] =
      .ok ("H".toList, ["/x".toList, "/x".toList], ["http://H/x".toList]) ∧
      'H' ∈ "H".toList ∧ 65 ≤ 'H'.toNat ∧ 'H'.toNat ≤ 90) ∧
    ∃ st', crawlSiteState scenarioEnv "http://H/x".toList [] (-1) 5 = .ok st' ∧
      st'.fetches = [] ∧
      crawl_site scenarioEnv "http://H/x".toList [] (-1) 5 = .ok [] :=
  ⟨⟨rfl, by decide, by decide, by decide⟩,
    c10_uppercase_host_dead_end scenarioEnv "http://H/x".toList [] (-1) 5
      "H".toList ["/x".toList, "/x".toList] ["http://H/x".toList] rfl
      'H' (by decide) (by decide)⟩

/-! Sanity checks of the `urllib.parse` model against CPython 3.11.6 outputs. -/

example : normalize_url "http://h/a/;b/".toList = .ok "http://h/a/;b".toList := by rfl

example : normalize_url "http://h/a/;b".toList = .ok "http://h/a;b".toList := by rfl

example : normalize_url "/////a".toList = .ok "///a".toList := by rfl

example : normalize_url "///a".toList = .ok "/a".toList := by rfl

example : normalize_url "http://[".toList = .error () := by rfl

example :
    normalize_url "HTTP://EXAMPLE.COM/Path/?Q=1#frag".toList =
      .ok "http://example.com/Path?Q=1".toList := by rfl

example : normalize_url "http://h//".toList = .ok "http://h".toList := by rfl

example : normalize_url "http:////x".toList = .ok "http://x".toList := by rfl

example : normalize_url "mailto://///a".toList = .ok "mailto:///a".toList := by rfl

example : normalize_url "http://h/;x".toList = .ok "http://h/;x".toList := by rfl

example : normalize_url "///".toList = .ok "/".toList := by rfl

example :
    urljoin "https://docs.example.com/guide".toList "/guide/faq".toList =
      .ok "https://docs.example.com/guide/faq".toList := by rfl

example :
    urljoin "http://h/a/b".toList "c/d".toList = .ok "http://h/a/c/d".toList := by
  rfl

example :
    urljoin "http://h/a/b".toList "../x".toList = .ok "http://h/x".toList := by
  rfl

example :
    urljoin "http://h/a".toList "http://other/z".toList =
      .ok "http://other/z".toList := by rfl

/-! Sanity checks of the crawl model on the concrete environments. -/

example :
    (crawl_site scenarioEnv "https://docs.example.com/guide".toList
        ["/guide/faq".toList] 2 10).map List.length = .ok 2 := by rfl

example :
    (crawl_site scenarioEnv "https://docs.example.com/guide".toList
        ["/guide/faq".toList] (-1) 10).map List.length = .ok 5 := by rfl

example :
    (crawlSiteState onPageBugEnv "http://h/a".toList [] (-1) 5).map
      (fun st => (st.scraped.length, st.pageCalls.length)) = .ok (1, 2) := by rfl

example :
    (crawlSiteState onProgressEnv "http://h/login".toList [] (-1) 5).map
      (fun st => (st.pops, st.progressCalls, st.visited)) =
      .ok (1, [], ["http://h/login".toList]) := by rfl

end Crawler
